import Mathlib

/-
Verification of the Verilator runtime math library (`include/verilated_funcs.h`)
against its natural-language specification.

The C++ functions are shallowly embedded over ℕ / ℤ:
* `IData`/`EData` (uint32_t) values are ℕ below 2^32; implicit C truncation
  is written `t32`/`&&& mask32`, unary minus is `neg32`, `~` is `compl32`.
* `QData` (uint64_t) values are ℕ below 2^64, truncation `t64`.
* `int32_t`/`int64_t` reinterpretation is `i32`/`i64` (two's complement),
  conversion back to the unsigned return type is `u32`/`u64`; C++ signed
  division/remainder truncate toward zero (`Int.tdiv`/`Int.tmod`).
* Wide values (`WData*`) are word arrays `WArr := ℕ → ℕ` (index ↦ 32-bit word,
  least-significant word first); a store `owp[i] = v` is `wset owp i v`, and
  C `for` loops become structural recursions over the iteration count.
* The numeric value of the first `n` words is `wToNatFrom f 0 n`.

Width/masking macros (`VL_MASK_I`, `VL_WORDS_I`, `VL_BITWORD_E`, ...) live in
`verilated.h`/`verilatedos.h`, which are not part of the sources under
verification; they are modelled from the specification (words(W) = ceil(W/32),
mask keeps the low W%32 bits of the top word) and from their documented uses
in `verilated_funcs.h` (e.g. `VL_MASK_E(0)` acts as an all-ones no-op mask).
-/

namespace Verilated

/-- Low 32 bits all set: the value of `~0` / `0xffffffff` at `uint32_t`. -/
def mask32 : ℕ := 0xFFFFFFFF

/-- Low 64 bits all set: the value of `~0ULL` at `uint64_t`. -/
def mask64 : ℕ := 0xFFFFFFFFFFFFFFFF

/-- Implicit truncation of a C expression to `uint32_t`. -/
def t32 (x : ℕ) : ℕ := x &&& mask32

/-- Implicit truncation of a C expression to `uint64_t`. -/
def t64 (x : ℕ) : ℕ := x &&& mask64

/-- Bitwise complement `~x` at `uint32_t` (operands are below 2^32). -/
def compl32 (x : ℕ) : ℕ := x ^^^ mask32

/-- Bitwise complement `~x` at `uint64_t`. -/
def compl64 (x : ℕ) : ℕ := x ^^^ mask64

/-- Unary minus `-x` at `uint32_t`: two's complement negation mod 2^32. -/
def neg32 (x : ℕ) : ℕ := (2 ^ 32 - t32 x) % 2 ^ 32

/-- Unary minus `-x` at `uint64_t`. -/
def neg64 (x : ℕ) : ℕ := (2 ^ 64 - t64 x) % 2 ^ 64

/-- Modelled from the spec: `VL_MASK_I(nbits)` of `verilated.h` (not under the
sources in scope) — mask for the low `nbits` bits of a 32-bit word;
`(nbits & 31) ? (1U << (nbits & 31)) - 1 : ~0`, so a multiple of 32 gives
all-ones (the "no-op mask" its callers rely on). -/
def VL_MASK_I (nbits : ℕ) : ℕ :=
  if nbits &&& 31 ≠ 0 then (1 <<< (nbits &&& 31)) - 1 else mask32

/-- Modelled from the spec: `VL_MASK_Q(nbits)` — 64-bit variant of the width
mask. -/
def VL_MASK_Q (nbits : ℕ) : ℕ :=
  if nbits &&& 63 ≠ 0 then (1 <<< (nbits &&& 63)) - 1 else mask64

/-- Modelled from the spec: `VL_MASK_E` is `VL_MASK_I` (EData = IData = 32 bit). -/
def VL_MASK_E (nbits : ℕ) : ℕ := VL_MASK_I nbits

/-- Modelled from the spec: `VL_WORDS_I(nbits)` = ceil(nbits/32), the word
count of a wide value. -/
def VL_WORDS_I (nbits : ℕ) : ℕ := (nbits + 31) / 32

/-- Modelled from the spec: `VL_BITWORD_E(bit)` = `bit >> 5`, the word index
holding a bit. -/
def VL_BITWORD_E (bit : ℕ) : ℕ := bit / 32

/-- Modelled from the spec: `VL_BITBIT_E(bit)` = `bit & 31`, the offset of a
bit within its word. -/
def VL_BITBIT_E (bit : ℕ) : ℕ := bit % 32

/-- Modelled from the spec: `VL_BITBIT_I` — same as `VL_BITBIT_E`. -/
def VL_BITBIT_I (bit : ℕ) : ℕ := bit % 32

/-- Modelled from the spec: `VL_BITBIT_Q(bit)` = `bit & 63`. -/
def VL_BITBIT_Q (bit : ℕ) : ℕ := bit % 64

/-- Wide value: word array, index ↦ 32-bit word, least-significant first. -/
abbrev WArr := ℕ → ℕ

/-- Store `owp[i] = v`. -/
def wset (f : WArr) (i v : ℕ) : WArr := fun j => if j = i then v else f j

/-- `VL_BITRSHIFT_W(data, bit)`: `data[VL_BITWORD_E(bit)] >> VL_BITBIT_E(bit)`. -/
def VL_BITRSHIFT_W (f : WArr) (bit : ℕ) : ℕ := f (VL_BITWORD_E bit) >>> VL_BITBIT_E bit

/-- `VL_SIGN_I(nbits, lhs)`: `lhs >> VL_BITBIT_I(nbits - 1)`. -/
def VL_SIGN_I (nbits lhs : ℕ) : ℕ := lhs >>> VL_BITBIT_I (nbits - 1)

/-- `VL_SIGN_Q(nbits, lhs)`: `lhs >> VL_BITBIT_Q(nbits - 1)`. -/
def VL_SIGN_Q (nbits lhs : ℕ) : ℕ := lhs >>> VL_BITBIT_Q (nbits - 1)

/-- `VL_SIGN_E(nbits, lhs)`: `lhs >> VL_BITBIT_E(nbits - 1)`. -/
def VL_SIGN_E (nbits lhs : ℕ) : ℕ := lhs >>> VL_BITBIT_E (nbits - 1)

/-- `VL_SIGNONES_E(nbits, lhs)`: `-(VL_SIGN_E(nbits, lhs))` at `uint32_t`. -/
def VL_SIGNONES_E (nbits lhs : ℕ) : ℕ := neg32 (VL_SIGN_E nbits lhs)

/-- `VL_CLEAN_II(obits, lbits, lhs)`: `lhs & VL_MASK_I(obits)`. -/
def VL_CLEAN_II (obits _lbits lhs : ℕ) : ℕ := lhs &&& VL_MASK_I obits

/-- `VL_CLEAN_QQ(obits, lbits, lhs)`: `lhs & VL_MASK_Q(obits)`. -/
def VL_CLEAN_QQ (obits _lbits lhs : ℕ) : ℕ := lhs &&& VL_MASK_Q obits

/-- `VL_EXTENDSIGN_I(lbits, lhs)`: `-(lhs & (1U << (lbits - 1)))`. -/
def VL_EXTENDSIGN_I (lbits lhs : ℕ) : ℕ := neg32 (lhs &&& t32 (1 <<< (lbits - 1)))

/-- `VL_EXTENDSIGN_Q(lbits, lhs)`: `-(lhs & (1ULL << (lbits - 1)))`. -/
def VL_EXTENDSIGN_Q (lbits lhs : ℕ) : ℕ := neg64 (lhs &&& t64 (1 <<< (lbits - 1)))

/-- `VL_EXTENDS_II`: sign extension, `VL_EXTENDSIGN_I(lbits, lhs) | lhs`. -/
def VL_EXTENDS_II (_obits lbits lhs : ℕ) : ℕ := VL_EXTENDSIGN_I lbits lhs ||| lhs

/-- `VL_EXTENDS_QQ`: sign extension, `VL_EXTENDSIGN_Q(lbits, lhs) | lhs`. -/
def VL_EXTENDS_QQ (_obits lbits lhs : ℕ) : ℕ := VL_EXTENDSIGN_Q lbits lhs ||| lhs

/-- Reinterpret a `uint32_t` bit pattern as `int32_t` (two's complement). -/
def i32 (n : ℕ) : ℤ := if n < 2 ^ 31 then (n : ℤ) else (n : ℤ) - 2 ^ 32

/-- Reinterpret a `uint64_t` bit pattern as `int64_t` (two's complement). -/
def i64 (n : ℕ) : ℤ := if n < 2 ^ 63 then (n : ℤ) else (n : ℤ) - 2 ^ 64

/-- Convert an `int32_t` result to the `uint32_t`/`IData` return value. -/
def u32 (z : ℤ) : ℕ := (z % 2 ^ 32).toNat

/-- Convert an `int64_t` result to the `uint64_t`/`QData` return value. -/
def u64 (z : ℤ) : ℕ := (z % 2 ^ 64).toNat

/-- Value of words `f i, f (i+1), ..., f (i+n-1)`, least-significant first. -/
def wToNatFrom (f : WArr) : ℕ → ℕ → ℕ
  | _, 0 => 0
  | i, n + 1 => f i + 2 ^ 32 * wToNatFrom f (i + 1) n

/-- Value of the first `n` words of a wide buffer. -/
def wToNat (f : WArr) (n : ℕ) : ℕ := wToNatFrom f 0 n

/-- Loop writing `g i` into word `i` for `i = start, ..., start+n-1`
(the shape of `for (int i = start; i < start+n; ++i) owp[i] = g(i);`). -/
def wsetLoop (g : ℕ → ℕ) : ℕ → ℕ → WArr → WArr
  | _, 0, owp => owp
  | start, n + 1, owp => wsetLoop g (start + 1) n (wset owp start (g start))

/-- Loop body of `VL_ADD_W`: ripple-carry addition, one word per iteration;
`carry = carry + (QData)lwp[i] + (QData)rwp[i]; owp[i] = carry & 0xffffffff;
carry = (carry >> 32) & 0xffffffff;`. `n` is the remaining iteration count. -/
def addLoop (lwp rwp : WArr) : ℕ → ℕ → ℕ → WArr → WArr
  | _, 0, _, owp => owp
  | i, n + 1, carry, owp =>
    let c1 := t64 (carry + lwp i + rwp i)
    addLoop lwp rwp (i + 1) n ((c1 >>> 32) &&& mask32) (wset owp i (c1 &&& mask32))

/-- `VL_ADD_W(words, owp, lwp, rwp)`: wide addition over `words` words.
The last output word is dirty. -/
def VL_ADD_W (words : ℕ) (owp lwp rwp : WArr) : WArr := addLoop lwp rwp 0 words 0 owp

/-- `VL_DIV_III`: `(rhs == 0) ? 0 : lhs / rhs` (unsigned). -/
def VL_DIV_III (_lbits lhs rhs : ℕ) : ℕ := if rhs = 0 then 0 else lhs / rhs

/-- `VL_DIV_QQQ`: `(rhs == 0) ? 0 : lhs / rhs` (unsigned, 64-bit). -/
def VL_DIV_QQQ (_lbits lhs rhs : ℕ) : ℕ := if rhs = 0 then 0 else lhs / rhs

/-- `VL_MODDIV_III`: `(rhs == 0) ? 0 : lhs % rhs`. -/
def VL_MODDIV_III (_lbits lhs rhs : ℕ) : ℕ := if rhs = 0 then 0 else lhs % rhs

/-- `VL_MODDIV_QQQ`: `(rhs == 0) ? 0 : lhs % rhs`. -/
def VL_MODDIV_QQQ (_lbits lhs rhs : ℕ) : ℕ := if rhs = 0 then 0 else lhs % rhs

/-- Modelled from the spec: `_vl_moddiv_w` is only declared `extern` in
verilated_funcs.h — its body (in verilated.cpp) is not among the sources in
scope. Per spec §4.4 it is unsigned multi-word long division/modulus over
words(lbits) words, and "division or modulus by zero returns 0". Result words
are the 32-bit chunks of the quotient (or remainder); words at index ≥
words(lbits) keep the prior buffer contents. -/
def _vl_moddiv_w (lbits : ℕ) (owp lwp rwp : WArr) (is_modulus : Bool) : WArr :=
  let n := VL_WORDS_I lbits
  let a := wToNatFrom lwp 0 n
  let b := wToNatFrom rwp 0 n
  let q := if b = 0 then 0 else if is_modulus then a % b else a / b
  fun i => if i < n then (q >>> (32 * i)) &&& mask32 else owp i

/-- `VL_DIV_WWW(lbits, owp, lwp, rwp)` = `_vl_moddiv_w(lbits, owp, lwp, rwp, 0)`. -/
def VL_DIV_WWW (lbits : ℕ) (owp lwp rwp : WArr) : WArr :=
  _vl_moddiv_w lbits owp lwp rwp false

/-- `VL_MODDIV_WWW(lbits, owp, lwp, rwp)` = `_vl_moddiv_w(lbits, owp, lwp, rwp, 1)`. -/
def VL_MODDIV_WWW (lbits : ℕ) (owp lwp rwp : WArr) : WArr :=
  _vl_moddiv_w lbits owp lwp rwp true

/-- `VL_DIVS_III`: signed division. Divisor 0 → 0; the 32-bit pattern pair
(0x80000000, 0xffffffff) → 0 (would SIGFPE in machine int32 division);
otherwise sign-extend both to 32 bits and divide truncating toward zero. -/
def VL_DIVS_III (lbits lhs rhs : ℕ) : ℕ :=
  if rhs = 0 then 0
  else if lhs = 0x80000000 ∧ rhs = 0xFFFFFFFF then 0
  else u32 (Int.tdiv (i32 (VL_EXTENDS_II 32 lbits lhs)) (i32 (VL_EXTENDS_II 32 lbits rhs)))

/-- `VL_MODDIVS_III`: signed modulus, same guards as `VL_DIVS_III`. -/
def VL_MODDIVS_III (lbits lhs rhs : ℕ) : ℕ :=
  if rhs = 0 then 0
  else if lhs = 0x80000000 ∧ rhs = 0xFFFFFFFF then 0
  else u32 (Int.tmod (i32 (VL_EXTENDS_II 32 lbits lhs)) (i32 (VL_EXTENDS_II 32 lbits rhs)))

/-- `VL_DIVS_QQQ`: signed division, 64-bit variant. -/
def VL_DIVS_QQQ (lbits lhs rhs : ℕ) : ℕ :=
  if rhs = 0 then 0
  else if lhs = 0x8000000000000000 ∧ rhs = 0xFFFFFFFFFFFFFFFF then 0
  else u64 (Int.tdiv (i64 (VL_EXTENDS_QQ 64 lbits lhs)) (i64 (VL_EXTENDS_QQ 64 lbits rhs)))

/-- `VL_MODDIVS_QQQ`: signed modulus, 64-bit variant. -/
def VL_MODDIVS_QQQ (lbits lhs rhs : ℕ) : ℕ :=
  if rhs = 0 then 0
  else if lhs = 0x8000000000000000 ∧ rhs = 0xFFFFFFFFFFFFFFFF then 0
  else u64 (Int.tmod (i64 (VL_EXTENDS_QQ 64 lbits lhs)) (i64 (VL_EXTENDS_QQ 64 lbits rhs)))

/-- Loop body of `VL_NEGATE_W`: `owp[i] = ~lwp[i] + carry;
carry = (owp[i] < ~lwp[i]);`, carry starts at 1. -/
def negLoop (lwp : WArr) : ℕ → ℕ → ℕ → WArr → WArr
  | _, 0, _, owp => owp
  | i, n + 1, carry, owp =>
    let w := t32 (compl32 (lwp i) + carry)
    negLoop lwp (i + 1) n (if w < compl32 (lwp i) then 1 else 0) (wset owp i w)

/-- `VL_NEGATE_W(words, owp, lwp)`: wide two's-complement negation. -/
def VL_NEGATE_W (words : ℕ) (owp lwp : WArr) : WArr := negLoop lwp 0 words 1 owp

/-- `_vl_clean_inplace_w(obits, owp)`: `owp[words-1] &= VL_MASK_E(obits)`. -/
def _vl_clean_inplace_w (obits : ℕ) (owp : WArr) : WArr :=
  wset owp (VL_WORDS_I obits - 1) (owp (VL_WORDS_I obits - 1) &&& VL_MASK_E obits)

/-- `VL_DIVS_WWW`: wide signed division. Negates negative operands into local
stores (uninitialized stack arrays, modelled zero-filled), divides unsigned,
negates the result back when exactly one operand was negative. -/
def VL_DIVS_WWW (lbits : ℕ) (owp lwp rwp : WArr) : WArr :=
  let lwords := VL_WORDS_I lbits
  let lsign := VL_SIGN_E lbits (lwp (lwords - 1))
  let rsign := VL_SIGN_E lbits (rwp (lwords - 1))
  let ltup := if lsign ≠ 0 then
      _vl_clean_inplace_w lbits (VL_NEGATE_W lwords (fun _ => 0) lwp) else lwp
  let rtup := if rsign ≠ 0 then
      _vl_clean_inplace_w lbits (VL_NEGATE_W lwords (fun _ => 0) rwp) else rwp
  if (lsign ≠ 0 ∧ rsign = 0) ∨ (lsign = 0 ∧ rsign ≠ 0) then
    let qNoSign := VL_DIV_WWW lbits (fun _ => 0) ltup rtup
    _vl_clean_inplace_w lbits (VL_NEGATE_W lwords owp qNoSign)
  else
    VL_DIV_WWW lbits owp ltup rtup

/-- `_vl_insert_WI(iowp, ld, hbit, lbit, rbits)`: insert `ld` into the wide
buffer at bit slice `[hbit:lbit]`; `iowp` is `rbits` wide. The cleaning mask is
applied only when the slice touches the top (partial) word; the high-word
write is skipped when that word would be at the word-aligned end of the
declared width (out of bounds). `static_cast<EData>(ld)` is an identity. -/
def _vl_insert_WI (iowp : WArr) (ld hbit lbit rbits : ℕ) : WArr :=
  let hoffset := VL_BITBIT_E hbit
  let loffset := VL_BITBIT_E lbit
  let roffset := VL_BITBIT_E rbits
  let hword := VL_BITWORD_E hbit
  let lword := VL_BITWORD_E lbit
  let rword := VL_BITWORD_E rbits
  let cleanmask := if hword = rword then VL_MASK_E roffset else VL_MASK_E 0
  if hoffset = 31 ∧ loffset = 0 then
    wset iowp lword (ld &&& cleanmask)
  else
    let lde := ld
    if hword = lword then
      let insmask := VL_MASK_E (hoffset - loffset + 1) <<< loffset
      wset iowp lword
        ((iowp lword &&& compl32 insmask) ||| (t32 (lde <<< loffset) &&& (insmask &&& cleanmask)))
    else
      let hinsmask := VL_MASK_E (hoffset - 0 + 1) <<< 0
      let linsmask := VL_MASK_E (31 - loffset + 1) <<< loffset
      let nbitsonright := 32 - loffset
      let iowp1 := wset iowp lword
        ((iowp lword &&& compl32 linsmask) ||| (t32 (lde <<< loffset) &&& linsmask))
      if ¬(hword = rword ∧ roffset = 0) then
        wset iowp1 hword
          ((iowp1 hword &&& compl32 hinsmask) |||
            ((lde >>> nbitsonright) &&& (hinsmask &&& cleanmask)))
      else iowp1

/-- `VL_BITSEL_IWII(lbits, lwp, rd)`: single-bit select from a wide value;
out-of-range bit numbers (`rd > lbits`) give all-ones. -/
def VL_BITSEL_IWII (lbits : ℕ) (lwp : WArr) (rd : ℕ) : ℕ :=
  let word := VL_BITWORD_E rd
  if lbits < rd then mask32
  else lwp word >>> VL_BITBIT_E rd

/-- `VL_SEL_IWII(lbits, lwp, lsb, width)`: 32-bit range select from a wide
value; ranges reaching the declared width (`msb >= lbits`) give all-ones.
Output is dirty above `width`. -/
def VL_SEL_IWII (lbits : ℕ) (lwp : WArr) (lsb width : ℕ) : ℕ :=
  let msb := lsb + width - 1
  if lbits ≤ msb then mask32
  else if VL_BITWORD_E msb = VL_BITWORD_E lsb then VL_BITRSHIFT_W lwp lsb
  else
    let nbitsfromlow := 32 - VL_BITBIT_E lsb
    t32 (lwp (VL_BITWORD_E msb) <<< nbitsfromlow) ||| VL_BITRSHIFT_W lwp lsb

/-- `VL_SEL_QWII(lbits, lwp, lsb, width)`: 64-bit range select from a wide
value, spanning up to three words; the out-of-range check is strict
(`msb > lbits`). -/
def VL_SEL_QWII (lbits : ℕ) (lwp : WArr) (lsb width : ℕ) : ℕ :=
  let msb := lsb + width - 1
  if lbits < msb then mask64
  else if VL_BITWORD_E msb = VL_BITWORD_E lsb then VL_BITRSHIFT_W lwp lsb
  else if VL_BITWORD_E msb = 1 + VL_BITWORD_E lsb then
    let nbitsfromlow := 32 - VL_BITBIT_E lsb
    let hi := lwp (VL_BITWORD_E msb)
    let lo := VL_BITRSHIFT_W lwp lsb
    t64 (hi <<< nbitsfromlow) ||| lo
  else
    let nbitsfromlow := 32 - VL_BITBIT_E lsb
    let hi := lwp (VL_BITWORD_E msb)
    let mid := lwp (VL_BITWORD_E lsb + 1)
    let lo := VL_BITRSHIFT_W lwp lsb
    t64 (hi <<< (nbitsfromlow + 32)) ||| t64 (mid <<< nbitsfromlow) ||| lo

/-- `VL_SEL_WWII(obits, lbits, owp, lwp, lsb, width)`: wide range select;
out-of-range (`msb > lbits`, strict) fills the output with all-ones masked to
`obits`. -/
def VL_SEL_WWII (obits lbits : ℕ) (owp lwp : WArr) (lsb width : ℕ) : WArr :=
  let msb := lsb + width - 1
  let word_shift := VL_BITWORD_E lsb
  if lbits < msb then
    let owp1 := wsetLoop (fun _ => mask32) 0 (VL_WORDS_I obits - 1) owp
    wset owp1 (VL_WORDS_I obits - 1) (VL_MASK_E obits)
  else if VL_BITBIT_E lsb = 0 then
    wsetLoop (fun i => lwp (i + word_shift)) 0 (VL_WORDS_I obits) owp
  else
    let loffset := lsb &&& 31
    let nbitsfromlow := 32 - loffset
    let words := VL_WORDS_I (msb - lsb + 1)
    let owp1 := wsetLoop (fun i =>
        if i + word_shift + 1 ≤ VL_BITWORD_E msb then
          (lwp (i + word_shift) >>> loffset) ||| t32 (lwp (i + word_shift + 1) <<< nbitsfromlow)
        else lwp (i + word_shift) >>> loffset) 0 words owp
    wsetLoop (fun _ => 0) words (VL_WORDS_I obits - words) owp1

/-- Loop of `VL_POW_III`: repeated squaring over the exponent bits,
`if (i > 0) power = power * power; if (rhs & (1ULL << i)) out *= power;`
in `uint32_t`; `i` is the bit index, the second argument the remaining
iteration count. -/
def powLoopI (rhs : ℕ) : ℕ → ℕ → ℕ → ℕ → ℕ
  | _, 0, _, out => out
  | i, n + 1, power, out =>
    let power1 := if i > 0 then t32 (power * power) else power
    let out1 := if rhs &&& (1 <<< i) ≠ 0 then t32 (out * power1) else out
    powLoopI rhs (i + 1) n power1 out1

/-- `VL_POW_III(obits, lbits, rbits, lhs, rhs)`: unsigned power by repeated
squaring over `rbits` exponent bits; exponent 0 → 1, base 0 → 0. -/
def VL_POW_III (_obits _lbits rbits lhs rhs : ℕ) : ℕ :=
  if rhs = 0 then 1
  else if lhs = 0 then 0
  else powLoopI rhs 0 rbits lhs 1

/-- Loop of `VL_POW_QQQ`: as `powLoopI` but in `uint64_t`. -/
def powLoopQ (rhs : ℕ) : ℕ → ℕ → ℕ → ℕ → ℕ
  | _, 0, _, out => out
  | i, n + 1, power, out =>
    let power1 := if i > 0 then t64 (power * power) else power
    let out1 := if rhs &&& (1 <<< i) ≠ 0 then t64 (out * power1) else out
    powLoopQ rhs (i + 1) n power1 out1

/-- `VL_POW_QQQ(obits, lbits, rbits, lhs, rhs)`: 64-bit unsigned power. -/
def VL_POW_QQQ (_obits _lbits rbits lhs rhs : ℕ) : ℕ :=
  if rhs = 0 then 1
  else if lhs = 0 then 0
  else powLoopQ rhs 0 rbits lhs 1

/-- `VL_POWSS_III(obits, lbits, rbits, lhs, rhs, lsign, rsign)`: signed power.
Exponent 0 → 1; a signed negative exponent gives 0 unless the base is 0
(→ 0), 1 (→ 1), or signed −1 = all-ones at `obits` (→ −1 for odd, 1 for even
exponents); otherwise delegates to the unsigned power. -/
def VL_POWSS_III (obits _lbits rbits lhs rhs : ℕ) (lsign rsign : Bool) : ℕ :=
  if rhs = 0 then 1
  else if rsign ∧ VL_SIGN_I rbits rhs ≠ 0 then
    if lhs = 0 then 0
    else if lhs = 1 then 1
    else if lsign ∧ lhs = VL_MASK_I obits then
      if rhs &&& 1 ≠ 0 then VL_MASK_I obits else 1
    else 0
  else VL_POW_III obits rbits rbits lhs rhs

/-- `VL_POWSS_QQQ(obits, lbits, rbits, lhs, rhs, lsign, rsign)`: 64-bit
signed power, same special cases as `VL_POWSS_III`. -/
def VL_POWSS_QQQ (obits _lbits rbits lhs rhs : ℕ) (lsign rsign : Bool) : ℕ :=
  if rhs = 0 then 1
  else if rsign ∧ VL_SIGN_Q rbits rhs ≠ 0 then
    if lhs = 0 then 0
    else if lhs = 1 then 1
    else if lsign ∧ lhs = VL_MASK_Q obits then
      if rhs &&& 1 ≠ 0 then VL_MASK_Q obits else 1
    else 0
  else VL_POW_QQQ obits rbits rbits lhs rhs

/-- Loop of `VL_REPLICATE_III`: `returndata = returndata << lbits;
returndata |= ld;`, iterated `rep - 1` times (the C loop runs `i = 1 .. rep-1`). -/
def replLoopI (lbits ld : ℕ) : ℕ → ℕ → ℕ
  | 0, acc => acc
  | n + 1, acc => replLoopI lbits ld n (t32 (acc <<< lbits) ||| ld)

/-- `VL_REPLICATE_III(lbits, ld, rep)`: narrow replication; starts from the
base value and appends `rep - 1` further copies. -/
def VL_REPLICATE_III (lbits ld rep : ℕ) : ℕ := replLoopI lbits ld (rep - 1) ld

/-- Insert loop of `VL_REPLICATE_WII`:
`_vl_insert_WI(owp, ld, i*lbits+lbits-1, i*lbits)` for `i = 1 .. rep-1`
(with the defaulted `rbits = 0`). -/
def replInsLoopW (lbits ld : ℕ) : ℕ → ℕ → WArr → WArr
  | _, 0, owp => owp
  | i, n + 1, owp =>
    replInsLoopW lbits ld (i + 1) n
      (_vl_insert_WI owp ld (i * lbits + lbits - 1) (i * lbits) 0)

/-- `VL_REPLICATE_WII(lbits, owp, ld, rep)`: wide replication of a narrow
base value: word 0 gets `ld`, words `1 .. words(lbits*rep)-1` are zeroed,
then copies are range-inserted at offsets `i*lbits` for `i = 1 .. rep-1`. -/
def VL_REPLICATE_WII (lbits : ℕ) (owp : WArr) (ld rep : ℕ) : WArr :=
  let owp1 := wset owp 0 ld
  let owp2 := wsetLoop (fun _ => 0) 1 (VL_WORDS_I (lbits * rep) - 1) owp1
  replInsLoopW lbits ld 1 (rep - 1) owp2

/-- One masked swap line of the `VL_STREAML_FAST_*` bit-reversal cascade:
`ret = ((ret >> sh) & m) | ((ret & m) << sh)` (no truncation needed: the
masks confine the left shift to 32 bits). -/
def vlStreamSwap (sh m ret : ℕ) : ℕ := ((ret >>> sh) &&& m) ||| ((ret &&& m) <<< sh)

/-- The final half-word rotate line of the cascade:
`ret = (ret >> 16) | (ret << 16)` at `uint32_t` (the left shift wraps). -/
def vlStreamSwap16 (ret : ℕ) : ℕ := (ret >>> 16) ||| t32 (ret <<< 16)

/-- Pre-shift of the bits in the most-significant slice of
`VL_STREAML_FAST_III`: when `lbits` is not a multiple of the slice size, the
partial top slice is moved up so the reversal leaves no gap. -/
def vlStreamPre (lbits rd_log2 ret : ℕ) : ℕ :=
  if rd_log2 ≠ 0 then
    let lbitsFloor := lbits &&& compl32 (VL_MASK_I rd_log2)
    let lbitsRem := lbits - lbitsFloor
    let msbMask := if lbitsFloor = 32 then 0 else t32 (VL_MASK_I lbitsRem <<< lbitsFloor)
    (ret &&& compl32 msbMask) ||| t32 ((ret &&& msbMask) <<< ((1 <<< rd_log2) - lbitsRem))
  else ret

/-- `VL_STREAML_FAST_III(lbits, ld, rd_log2)`: fast left-stream for
power-of-two slice sizes: the pre-shift, then the masked shift-and-swap
cascade (the C `switch` falls through from case `rd_log2` down, so line k
runs when rd_log2 ≤ k), then a right shift realigning the result to the low
`lbits` bits. -/
def VL_STREAML_FAST_III (lbits ld rd_log2 : ℕ) : ℕ :=
  let ret := vlStreamPre lbits rd_log2 ld
  let ret := if rd_log2 ≤ 0 then vlStreamSwap 1 0x55555555 ret else ret
  let ret := if rd_log2 ≤ 1 then vlStreamSwap 2 0x33333333 ret else ret
  let ret := if rd_log2 ≤ 2 then vlStreamSwap 4 0x0F0F0F0F ret else ret
  let ret := if rd_log2 ≤ 3 then vlStreamSwap 8 0x00FF00FF ret else ret
  let ret := if rd_log2 ≤ 4 then vlStreamSwap16 ret else ret
  ret >>> (32 - lbits)

/-- Loop of `VL_STREAML_III`: per slice,
`ostart = max(lbits - rd - istart, 0)` (ℕ subtraction is the clamp) and
`ret |= ((ld >> istart) & mask) << ostart`. The fuel argument bounds the
iteration count (`lbits` suffices for slice sizes ≥ 1, on which the C loop
terminates). -/
def streamlLoop (lbits ld rd mask : ℕ) : ℕ → ℕ → ℕ → ℕ
  | _, 0, ret => ret
  | istart, fuel + 1, ret =>
    if istart < lbits then
      let ostart := lbits - rd - istart
      streamlLoop lbits ld rd mask (istart + rd) fuel
        (ret ||| t32 (((ld >>> istart) &&& mask) <<< ostart))
    else ret

/-- `VL_STREAML_III(lbits, ld, rd)`: generic (slow) left-stream, copying one
`rd`-bit slice per iteration. -/
def VL_STREAML_III (lbits ld rd : ℕ) : ℕ :=
  streamlLoop lbits ld rd (VL_MASK_I rd) 0 lbits 0

/-- `VL_SHIFTL_III`: logical shift left; shift amounts ≥ 32 give 0, the
result is not cleaned. -/
def VL_SHIFTL_III (_obits _lbits _rbits lhs rhs : ℕ) : ℕ :=
  if 32 ≤ rhs then 0 else t32 (lhs <<< rhs)

/-- `VL_SHIFTR_III`: logical shift right; shift amounts ≥ 32 give 0. -/
def VL_SHIFTR_III (_obits _lbits _rbits lhs rhs : ℕ) : ℕ :=
  if 32 ≤ rhs then 0 else lhs >>> rhs

/-- `VL_SHIFTRS_III`: arithmetic shift right; the sign is taken at bit
`lbits-1`, shift amounts ≥ 32 give the sign masked to `obits`, otherwise the
bits shifted past the width are sign-filled. -/
def VL_SHIFTRS_III (obits lbits _rbits lhs rhs : ℕ) : ℕ :=
  let sign := neg32 (lhs >>> (lbits - 1))
  if 32 ≤ rhs then sign &&& VL_MASK_I obits
  else
    let signext := compl32 (VL_MASK_I lbits >>> rhs)
    (lhs >>> rhs) ||| (sign &&& VL_CLEAN_II obits obits signext)

/-- Loop of `_vl_insert_WW`: per iteration a lower-word and (when still below
`hword`) an upper-word read-modify-write, with the cleaning mask applied when
the touched word is `hword`. -/
def insWWLoop (lwp : WArr) (lword hword linsmask hinsmask cleanmask loffset nbitsonright : ℕ) :
    ℕ → ℕ → WArr → WArr
  | _, 0, iowp => iowp
  | i, n + 1, iowp =>
    let oword := lword + i
    let d := t32 (lwp i <<< loffset)
    let od := (iowp oword &&& compl32 linsmask) ||| (d &&& linsmask)
    let iowp1 :=
      if oword = hword then
        wset iowp oword ((iowp oword &&& compl32 hinsmask) ||| (od &&& (hinsmask &&& cleanmask)))
      else wset iowp oword od
    let oword2 := lword + i + 1
    let iowp2 :=
      if oword2 ≤ hword then
        let d2 := lwp i >>> nbitsonright
        let od2 := (d2 &&& compl32 linsmask) ||| (iowp1 oword2 &&& linsmask)
        if oword2 = hword then
          wset iowp1 oword2
            ((iowp1 oword2 &&& compl32 hinsmask) ||| (od2 &&& (hinsmask &&& cleanmask)))
        else wset iowp1 oword2 od2
      else iowp1
    insWWLoop lwp lword hword linsmask hinsmask cleanmask loffset nbitsonright (i + 1) n iowp2

/-- `_vl_insert_WW(iowp, lwp, hbit, lbit, rbits)`: insert a wide value into
bit slice `[hbit:lbit]`. The aligned loops write `lwp[i]` to `iowp[lword+i]`,
expressed here as destination index ↦ `lwp (dest - lword)`. -/
def _vl_insert_WW (iowp lwp : WArr) (hbit lbit rbits : ℕ) : WArr :=
  let hoffset := VL_BITBIT_E hbit
  let loffset := VL_BITBIT_E lbit
  let roffset := VL_BITBIT_E rbits
  let lword := VL_BITWORD_E lbit
  let hword := VL_BITWORD_E hbit
  let rword := VL_BITWORD_E rbits
  let words := VL_WORDS_I (hbit - lbit + 1)
  let cleanmask := if hword = rword then VL_MASK_E roffset else VL_MASK_E 0
  if hoffset = 31 ∧ loffset = 0 then
    let owp1 := wsetLoop (fun i => lwp (i - lword)) lword (words - 1) iowp
    wset owp1 hword (lwp (words - 1) &&& cleanmask)
  else if loffset = 0 then
    let owp1 := wsetLoop (fun i => lwp (i - lword)) lword (words - 1) iowp
    let hinsmask := VL_MASK_E (hoffset - 0 + 1)
    wset owp1 hword
      ((owp1 hword &&& compl32 hinsmask) ||| (lwp (words - 1) &&& (hinsmask &&& cleanmask)))
  else
    let hinsmask := VL_MASK_E (hoffset - 0 + 1) <<< 0
    let linsmask := VL_MASK_E (31 - loffset + 1) <<< loffset
    let nbitsonright := 32 - loffset
    insWWLoop lwp lword hword linsmask hinsmask cleanmask loffset nbitsonright 0 words iowp

/-- `VL_SHIFTL_WWI(obits, lbits, rbits, owp, lwp, rd)`: wide logical shift
left. Shift amounts ≥ obits zero the whole output; aligned shifts copy words;
otherwise the output is zeroed and the value range-inserted at offset `rd`. -/
def VL_SHIFTL_WWI (obits _lbits _rbits : ℕ) (owp lwp : WArr) (rd : ℕ) : WArr :=
  let word_shift := VL_BITWORD_E rd
  let bit_shift := VL_BITBIT_E rd
  if obits ≤ rd then
    wsetLoop (fun _ => 0) 0 (VL_WORDS_I obits) owp
  else if bit_shift = 0 then
    let owp1 := wsetLoop (fun _ => 0) 0 word_shift owp
    wsetLoop (fun i => lwp (i - word_shift)) word_shift (VL_WORDS_I obits - word_shift) owp1
  else
    let owp1 := wsetLoop (fun _ => 0) 0 (VL_WORDS_I obits) owp
    _vl_insert_WW owp1 lwp (obits - 1) rd 0

/-- `VL_SHIFTRS_WWI(obits, lbits, rbits, owp, lwp, rd)`: wide arithmetic
shift right; the sign (all-ones or all-zeros) comes from bit `lbits-1` of the
top word; shifting past the end fills every word with the sign and masks the
top word to `lbits`. -/
def VL_SHIFTRS_WWI (obits lbits _rbits : ℕ) (owp lwp : WArr) (rd : ℕ) : WArr :=
  let word_shift := VL_BITWORD_E rd
  let bit_shift := VL_BITBIT_E rd
  let lmsw := VL_WORDS_I obits - 1
  let sign := VL_SIGNONES_E lbits (lwp lmsw)
  if obits ≤ rd then
    let owp1 := wsetLoop (fun _ => sign) 0 (lmsw + 1) owp
    wset owp1 lmsw (owp1 lmsw &&& VL_MASK_E lbits)
  else if bit_shift = 0 then
    let copy_words := VL_WORDS_I obits - word_shift
    let owp1 := wsetLoop (fun i => lwp (i + word_shift)) 0 copy_words owp
    let owp2 := wset owp1 (copy_words - 1)
      (owp1 (copy_words - 1) ||| (compl32 (VL_MASK_E obits) &&& sign))
    let owp3 := wsetLoop (fun _ => sign) copy_words (VL_WORDS_I obits - copy_words) owp2
    wset owp3 lmsw (owp3 lmsw &&& VL_MASK_E lbits)
  else
    let loffset := rd &&& 31
    let nbitsonright := 32 - loffset
    let words := VL_WORDS_I (obits - rd)
    let owp1 := wsetLoop (fun i =>
        if i + word_shift + 1 < VL_WORDS_I obits then
          (lwp (i + word_shift) >>> loffset) ||| t32 (lwp (i + word_shift + 1) <<< nbitsonright)
        else lwp (i + word_shift) >>> loffset) 0 words owp
    let owp2 := if words ≠ 0 then
        wset owp1 (words - 1)
          (owp1 (words - 1) ||| (sign &&& compl32 (VL_MASK_E (obits - loffset))))
      else owp1
    let owp3 := wsetLoop (fun _ => sign) words (VL_WORDS_I obits - words) owp2
    wset owp3 lmsw (owp3 lmsw &&& VL_MASK_E lbits)

def VL_MODDIVS_WWW (lbits : ℕ) (owp lwp rwp : WArr) : WArr :=
  let lwords := VL_WORDS_I lbits
  let lsign := VL_SIGN_E lbits (lwp (lwords - 1))
  let rsign := VL_SIGN_E lbits (rwp (lwords - 1))
  let ltup := if lsign ≠ 0 then
      _vl_clean_inplace_w lbits (VL_NEGATE_W lwords (fun _ => 0) lwp) else lwp
  let rtup := if rsign ≠ 0 then
      _vl_clean_inplace_w lbits (VL_NEGATE_W lwords (fun _ => 0) rwp) else rwp
  if lsign ≠ 0 then
    let qNoSign := VL_MODDIV_WWW lbits (fun _ => 0) ltup rtup
    _vl_clean_inplace_w lbits (VL_NEGATE_W lwords owp qNoSign)
  else
    VL_MODDIV_WWW lbits owp ltup rtup

end Verilated

namespace Verilated

theorem wset_self (f : WArr) (i v : ℕ) : wset f i v i = v := by simp [wset]

theorem wset_other (f : WArr) {i j : ℕ} (v : ℕ) (h : j ≠ i) : wset f i v j = f j := by
  simp [wset, h]

theorem mask32_eq : mask32 = 2 ^ 32 - 1 := by decide

theorem mask64_eq : mask64 = 2 ^ 64 - 1 := by norm_num [mask64]

theorem t32_eq_mod (x : ℕ) : t32 x = x % 2 ^ 32 := by
  rw [t32, mask32_eq, Nat.and_pow_two_sub_one_eq_mod]

theorem t64_eq_mod (x : ℕ) : t64 x = x % 2 ^ 64 := by
  rw [t64, mask64_eq, Nat.and_pow_two_sub_one_eq_mod]

theorem and_mask32_eq_mod (x : ℕ) : x &&& mask32 = x % 2 ^ 32 := t32_eq_mod x

theorem addLoop_below (lwp rwp : WArr) :
    ∀ n i c owp j, j < i → addLoop lwp rwp i n c owp j = owp j := by
  intro n
  induction n with
  | zero => intro i c owp j _; rfl
  | succ n ih =>
    intro i c owp j hj
    show addLoop lwp rwp (i + 1) n _ _ j = _
    rw [ih (i + 1) _ _ j (by omega)]
    exact wset_other owp _ (by omega)

theorem addLoop_value (lwp rwp : WArr) :
    ∀ n i c owp, c ≤ 1 →
      (∀ j, i ≤ j → j < i + n → lwp j < 2 ^ 32 ∧ rwp j < 2 ^ 32) →
      wToNatFrom (addLoop lwp rwp i n c owp) i n
        = (c + wToNatFrom lwp i n + wToNatFrom rwp i n) % 2 ^ (32 * n) := by
  intro n
  induction n with
  | zero =>
    intro i c owp _ _
    simp [wToNatFrom, addLoop, Nat.mul_zero, pow_zero, Nat.mod_one]
  | succ n ih =>
    intro i c owp hc hw
    have hwi := hw i (le_refl i) (by omega)
    set s := c + lwp i + rwp i with hs
    have hsum : s < 2 ^ 64 := by
      have := hwi.1; have := hwi.2; omega
    have hc1 : t64 s = s := by
      rw [t64_eq_mod]; exact Nat.mod_eq_of_lt hsum
    have hcarry : (t64 s >>> 32) &&& mask32 = s / 2 ^ 32 := by
      rw [hc1, and_mask32_eq_mod, Nat.shiftRight_eq_div_pow]
      exact Nat.mod_eq_of_lt (by omega)
    have hcarry_le : s / 2 ^ 32 ≤ 1 := by omega
    show wToNatFrom (addLoop lwp rwp (i + 1) n _ _) i (n + 1) = _
    rw [wToNatFrom]
    rw [addLoop_below lwp rwp n (i + 1) _ _ i (by omega)]
    rw [wset_self, hcarry]
    rw [ih (i + 1) _ _ hcarry_le (fun j hj hj2 => hw j (by omega) (by omega))]
    rw [hc1, and_mask32_eq_mod]
    rw [wToNatFrom, wToNatFrom]
    have hexp : 2 ^ (32 * (n + 1)) = 2 ^ 32 * 2 ^ (32 * n) := by ring
    rw [hexp, Nat.mod_mul]
    have harg : c + (lwp i + 2 ^ 32 * wToNatFrom lwp (i + 1) n)
        + (rwp i + 2 ^ 32 * wToNatFrom rwp (i + 1) n)
        = s + 2 ^ 32 * (wToNatFrom lwp (i + 1) n + wToNatFrom rwp (i + 1) n) := by
      rw [hs]; ring
    rw [harg]
    rw [Nat.add_mul_mod_self_left s (2 ^ 32) _]
    rw [Nat.add_mul_div_left s _ (by positivity)]
    have hassoc : s / 2 ^ 32 + wToNatFrom lwp (i + 1) n + wToNatFrom rwp (i + 1) n
        = s / 2 ^ 32 + (wToNatFrom lwp (i + 1) n + wToNatFrom rwp (i + 1) n) := by ring
    rw [hassoc]

/-- C4: for operands clean at width W stored on words(W) words, the wide
ripple-carry add, masked to W bits, computes (a + b) mod 2^W. -/
theorem vl_add_w_mod (W : ℕ) (owp lwp rwp : WArr) (_hW : 1 ≤ W)
    (hwords : ∀ i, i < VL_WORDS_I W → lwp i < 2 ^ 32 ∧ rwp i < 2 ^ 32)
    (_hl : wToNat lwp (VL_WORDS_I W) < 2 ^ W)
    (_hr : wToNat rwp (VL_WORDS_I W) < 2 ^ W) :
    wToNat (VL_ADD_W (VL_WORDS_I W) owp lwp rwp) (VL_WORDS_I W) % 2 ^ W
      = (wToNat lwp (VL_WORDS_I W) + wToNat rwp (VL_WORDS_I W)) % 2 ^ W := by
  have hmain := addLoop_value lwp rwp (VL_WORDS_I W) 0 0 owp (by omega)
    (fun j hj hj2 => hwords j (by omega))
  unfold wToNat VL_ADD_W
  rw [hmain]
  have hWle : W ≤ 32 * VL_WORDS_I W := by
    unfold VL_WORDS_I; omega
  have hdvd : (2 : ℕ) ^ W ∣ 2 ^ (32 * VL_WORDS_I W) := pow_dvd_pow 2 hWle
  rw [Nat.mod_mod_of_dvd _ hdvd]
  simp

/-- C4 witness: width 8, 0xFF + 0x01 masked to 8 bits is 0. -/
theorem vl_add_w_mod_witness :
    wToNat (VL_ADD_W (VL_WORDS_I 8) (fun _ => 0) (fun _ => 0xFF) (fun _ => 0x01))
        (VL_WORDS_I 8) % 2 ^ 8
      = (wToNat (fun _ => 0xFF) (VL_WORDS_I 8) + wToNat (fun _ => 0x01) (VL_WORDS_I 8)) % 2 ^ 8 :=
  vl_add_w_mod 8 (fun _ => 0) (fun _ => 0xFF) (fun _ => 0x01) (by decide)
    (by decide) (by decide) (by decide)

theorem wToNatFrom_eq_zero (f : WArr) :
    ∀ n i, (∀ j, i ≤ j → j < i + n → f j = 0) → wToNatFrom f i n = 0 := by
  intro n
  induction n with
  | zero => intro i _; rfl
  | succ n ih =>
    intro i h
    rw [wToNatFrom, h i (le_refl i) (by omega),
      ih (i + 1) (fun j hj hj2 => h j (by omega) (by omega))]
    simp

theorem negLoop_outside (src : WArr) :
    ∀ n i c owp j, j < i ∨ i + n ≤ j → negLoop src i n c owp j = owp j := by
  intro n
  induction n with
  | zero => intro i c owp j _; rfl
  | succ n ih =>
    intro i c owp j hj
    show negLoop src (i + 1) n _ _ j = _
    rw [ih (i + 1) _ _ j (by omega)]
    exact wset_other owp _ (by omega)

theorem negLoop_zero_src (src : WArr) (hsrc : ∀ j, src j = 0) :
    ∀ n i owp j, i ≤ j → j < i + n → negLoop src i n 1 owp j = 0 := by
  intro n
  induction n with
  | zero => intro i owp j h1 h2; omega
  | succ n ih =>
    intro i owp j h1 h2
    show negLoop src (i + 1) n _ _ j = 0
    have hw : t32 (compl32 (src i) + 1) = 0 := by
      rw [hsrc i]; decide
    have hcar : (if t32 (compl32 (src i) + 1) < compl32 (src i) then 1 else 0) = 1 := by
      rw [hsrc i]; decide
    rcases Nat.lt_or_ge j (i + 1) with hj | hj
    · have hji : j = i := by omega
      rw [negLoop_outside src n (i + 1) _ _ j (by omega), hji, hw, wset_self]
    · rw [hcar, ih (i + 1) _ j hj (by omega)]

theorem moddiv_w_zero_divisor (lbits : ℕ) (owp lwp rwp : WArr) (m : Bool)
    (hr : wToNatFrom rwp 0 (VL_WORDS_I lbits) = 0) :
    ∀ j, j < VL_WORDS_I lbits → _vl_moddiv_w lbits owp lwp rwp m j = 0 := by
  intro j hj
  simp [_vl_moddiv_w, hr, Nat.zero_shiftRight, hj]

theorem moddiv_w_zero_divisor_all (lbits : ℕ) (lwp rwp : WArr) (m : Bool)
    (hr : wToNatFrom rwp 0 (VL_WORDS_I lbits) = 0) :
    ∀ k, _vl_moddiv_w lbits (fun _ => 0) lwp rwp m k = 0 := by
  intro k
  simp [_vl_moddiv_w, hr, Nat.zero_shiftRight]

theorem clean_negate_zero_src (lbits : ℕ) (owp q : WArr) (hqz : ∀ k, q k = 0)
    (j : ℕ) (hj : j < VL_WORDS_I lbits) :
    _vl_clean_inplace_w lbits (VL_NEGATE_W (VL_WORDS_I lbits) owp q) j = 0 := by
  unfold _vl_clean_inplace_w VL_NEGATE_W
  rcases eq_or_ne j (VL_WORDS_I lbits - 1) with hje | hje
  · subst hje
    rw [wset_self, negLoop_zero_src q hqz _ 0 _ _ (by omega) (by omega)]
    simp
  · rw [wset_other _ _ hje]
    exact negLoop_zero_src q hqz _ 0 _ j (by omega) (by omega)

/-- C7: every division and modulus variant — unsigned and signed; narrow,
medium, and wide — returns 0 when the divisor is zero. The wide unsigned core
`_vl_moddiv_w` is modelled from the spec (its body is outside the sources in
scope); the other variants are proved from the embedded source. -/
theorem vl_div_mod_by_zero (lbits lhs : ℕ) (owp lwp rwp : WArr)
    (hr : ∀ i, i < VL_WORDS_I lbits → rwp i = 0) :
    VL_DIV_III lbits lhs 0 = 0 ∧ VL_DIV_QQQ lbits lhs 0 = 0
    ∧ VL_MODDIV_III lbits lhs 0 = 0 ∧ VL_MODDIV_QQQ lbits lhs 0 = 0
    ∧ VL_DIVS_III lbits lhs 0 = 0 ∧ VL_DIVS_QQQ lbits lhs 0 = 0
    ∧ VL_MODDIVS_III lbits lhs 0 = 0 ∧ VL_MODDIVS_QQQ lbits lhs 0 = 0
    ∧ (∀ j, j < VL_WORDS_I lbits → VL_DIV_WWW lbits owp lwp rwp j = 0)
    ∧ (∀ j, j < VL_WORDS_I lbits → VL_MODDIV_WWW lbits owp lwp rwp j = 0)
    ∧ (∀ j, j < VL_WORDS_I lbits → VL_DIVS_WWW lbits owp lwp rwp j = 0)
    ∧ (∀ j, j < VL_WORDS_I lbits → VL_MODDIVS_WWW lbits owp lwp rwp j = 0) := by
  have hrz : wToNatFrom rwp 0 (VL_WORDS_I lbits) = 0 :=
    wToNatFrom_eq_zero rwp _ 0 (fun j _ hj2 => hr j (by omega))
  refine ⟨rfl, rfl, rfl, rfl, rfl, rfl, rfl, rfl, ?_, ?_, ?_, ?_⟩
  · exact moddiv_w_zero_divisor lbits owp lwp rwp false hrz
  · exact moddiv_w_zero_divisor lbits owp lwp rwp true hrz
  · intro j hj
    have hn : 1 ≤ VL_WORDS_I lbits := by omega
    have hrsign : VL_SIGN_E lbits (rwp (VL_WORDS_I lbits - 1)) = 0 := by
      rw [hr _ (by omega)]
      simp [VL_SIGN_E, Nat.zero_shiftRight]
    simp only [VL_DIVS_WWW, VL_DIV_WWW]
    have hR : ¬ VL_SIGN_E lbits (rwp (VL_WORDS_I lbits - 1)) ≠ 0 := by
      rw [hrsign]; simp
    rw [if_neg hR]
    by_cases hls : VL_SIGN_E lbits (lwp (VL_WORDS_I lbits - 1)) = 0
    · rw [if_neg (by simp [hls, hrsign])]
      exact moddiv_w_zero_divisor lbits owp _ rwp false hrz j hj
    · rw [if_pos (Or.inl ⟨hls, hrsign⟩)]
      exact clean_negate_zero_src lbits owp _
        (moddiv_w_zero_divisor_all lbits _ rwp false hrz) j hj
  · intro j hj
    have hn : 1 ≤ VL_WORDS_I lbits := by omega
    have hrsign : VL_SIGN_E lbits (rwp (VL_WORDS_I lbits - 1)) = 0 := by
      rw [hr _ (by omega)]
      simp [VL_SIGN_E, Nat.zero_shiftRight]
    simp only [VL_MODDIVS_WWW, VL_MODDIV_WWW]
    have hR : ¬ VL_SIGN_E lbits (rwp (VL_WORDS_I lbits - 1)) ≠ 0 := by
      rw [hrsign]; simp
    rw [if_neg hR]
    by_cases hls : VL_SIGN_E lbits (lwp (VL_WORDS_I lbits - 1)) = 0
    · rw [if_neg (by simp [hls])]
      exact moddiv_w_zero_divisor lbits owp _ rwp true hrz j hj
    · rw [if_pos hls]
      exact clean_negate_zero_src lbits owp _
        (moddiv_w_zero_divisor_all lbits _ rwp true hrz) j hj
theorem vl_div_mod_by_zero_witness :
    VL_DIV_III 8 5 0 = 0 ∧ VL_DIV_QQQ 8 5 0 = 0
    ∧ VL_MODDIV_III 8 5 0 = 0 ∧ VL_MODDIV_QQQ 8 5 0 = 0
    ∧ VL_DIVS_III 8 5 0 = 0 ∧ VL_DIVS_QQQ 8 5 0 = 0
    ∧ VL_MODDIVS_III 8 5 0 = 0 ∧ VL_MODDIVS_QQQ 8 5 0 = 0
    ∧ (∀ j, j < VL_WORDS_I 8 → VL_DIV_WWW 8 (fun _ => 3) (fun _ => 5) (fun _ => 0) j = 0)
    ∧ (∀ j, j < VL_WORDS_I 8 → VL_MODDIV_WWW 8 (fun _ => 3) (fun _ => 5) (fun _ => 0) j = 0)
    ∧ (∀ j, j < VL_WORDS_I 8 → VL_DIVS_WWW 8 (fun _ => 3) (fun _ => 5) (fun _ => 0) j = 0)
    ∧ (∀ j, j < VL_WORDS_I 8 → VL_MODDIVS_WWW 8 (fun _ => 3) (fun _ => 5) (fun _ => 0) j = 0) :=
  vl_div_mod_by_zero 8 5 (fun _ => 3) (fun _ => 5) (fun _ => 0) (fun _ _ => rfl)

/-- C1 counterexample: a width-5 signed divide of −16 (pattern 0b10000) by −1
(pattern 0b11111) returns 16 — the wrapped quotient — not the 0 the claim
states for every width. -/
theorem vl_divs_width5_counterexample :
    VL_DIVS_III 5 16 31 = 16 ∧ VL_DIVS_III 5 16 31 ≠ 0 := by decide

/-- C1 amended: the most-negative ÷ −1 sentinel of the signed divide applies
at the machine width of the variant (the 32-bit pattern pair in `VL_DIVS_III`
and `VL_MODDIVS_III`, the 64-bit pair in `VL_DIVS_QQQ`); for declared widths
L ≤ 31 the narrow signed divide of the width-L most-negative value by −1
returns the wrapped quotient 2^(L−1), while the signed modulus returns 0 at
every width (the division is exact). -/
theorem vl_divs_most_negative (L : ℕ) (h1 : 1 ≤ L) (h31 : L ≤ 31) :
    VL_DIVS_III L (2 ^ (L - 1)) (2 ^ L - 1) = 2 ^ (L - 1)
    ∧ VL_MODDIVS_III L (2 ^ (L - 1)) (2 ^ L - 1) = 0
    ∧ VL_DIVS_III 32 0x80000000 0xFFFFFFFF = 0
    ∧ VL_MODDIVS_III 32 0x80000000 0xFFFFFFFF = 0
    ∧ VL_DIVS_QQQ 64 0x8000000000000000 0xFFFFFFFFFFFFFFFF = 0
    ∧ VL_DIVS_QQQ 5 16 31 = 16 := by
  refine ⟨?_, ?_, by decide, by decide, by decide, by decide⟩
  · interval_cases L <;> decide
  · interval_cases L <;> decide

/-- C1 amended witness at L = 5: −16 ÷ −1 gives the wrapped 16, −16 mod −1 gives 0. -/
theorem vl_divs_most_negative_witness :
    VL_DIVS_III 5 (2 ^ (5 - 1)) (2 ^ 5 - 1) = 2 ^ (5 - 1)
    ∧ VL_MODDIVS_III 5 (2 ^ (5 - 1)) (2 ^ 5 - 1) = 0
    ∧ VL_DIVS_III 32 0x80000000 0xFFFFFFFF = 0
    ∧ VL_MODDIVS_III 32 0x80000000 0xFFFFFFFF = 0
    ∧ VL_DIVS_QQQ 64 0x8000000000000000 0xFFFFFFFFFFFFFFFF = 0
    ∧ VL_DIVS_QQQ 5 16 31 = 16 :=
  vl_divs_most_negative 5 (by decide) (by decide)

theorem wsetLoop_out (g : ℕ → ℕ) :
    ∀ n start owp j, j < start ∨ start + n ≤ j → wsetLoop g start n owp j = owp j := by
  intro n
  induction n with
  | zero => intro start owp j _; rfl
  | succ n ih =>
    intro start owp j hj
    show wsetLoop g (start + 1) n _ j = _
    rw [ih (start + 1) _ j (by omega)]
    exact wset_other owp _ (by omega)

theorem wsetLoop_in (g : ℕ → ℕ) :
    ∀ n start owp j, start ≤ j → j < start + n → wsetLoop g start n owp j = g j := by
  intro n
  induction n with
  | zero => intro start owp j h1 h2; omega
  | succ n ih =>
    intro start owp j h1 h2
    show wsetLoop g (start + 1) n _ j = _
    rcases Nat.lt_or_ge j (start + 1) with hj | hj
    · have hjs : j = start := by omega
      rw [wsetLoop_out g n (start + 1) _ j (by omega), hjs, wset_self]
    · exact ih (start + 1) _ j hj (by omega)

/-- C10: replication with repeat count 0 still yields one copy of the base
value — `VL_REPLICATE_III` returns `ld` itself, and `VL_REPLICATE_WII` writes
`ld` into word 0 and leaves every other word of the buffer untouched —
because the copy loops start at iteration 1. -/
theorem vl_replicate_rep_zero (lbits ld : ℕ) (owp : WArr) :
    VL_REPLICATE_III lbits ld 0 = ld
    ∧ VL_REPLICATE_WII lbits owp ld 0 0 = ld
    ∧ ∀ j, 1 ≤ j → VL_REPLICATE_WII lbits owp ld 0 j = owp j := by
  refine ⟨rfl, ?_, ?_⟩
  · simp [VL_REPLICATE_WII, replInsLoopW, wsetLoop, VL_WORDS_I, wset]
  · intro j hj
    have h0 : j ≠ 0 := by omega
    simp [VL_REPLICATE_WII, replInsLoopW, wsetLoop, VL_WORDS_I, wset, h0]

/-- C10 witness: 3-bit base value 5 with repeat count 0 — the narrow variant
returns 5 and the wide variant leaves word 1 at its prior contents. -/
theorem vl_replicate_rep_zero_witness :
    VL_REPLICATE_WII 3 (fun _ => 7) 5 0 1 = (fun _ => (7 : ℕ)) 1 :=
  (vl_replicate_rep_zero 3 5 (fun _ => 7)).2.2 1 (by decide)

/-- C9: `_vl_insert_WI` never writes past the declared width: when the
inserted range crosses a word boundary and its high bit lands in the
word-aligned word just past a width `rbits` that is a multiple of 32, the
high-word write is skipped, so every word at index ≥ words(rbits) keeps its
prior contents. -/
theorem vl_insert_wi_no_oob_write (iowp : WArr) (ld hbit lbit rbits : ℕ)
    (hmul : rbits % 32 = 0) (hlo : lbit < rbits) (hhi1 : rbits ≤ hbit)
    (hhi2 : hbit < rbits + 32) :
    ∀ j, VL_WORDS_I rbits ≤ j → _vl_insert_WI iowp ld hbit lbit rbits j = iowp j := by
  intro j hj
  have hwords : VL_WORDS_I rbits = rbits / 32 := by
    unfold VL_WORDS_I; omega
  rw [hwords] at hj
  simp only [_vl_insert_WI, VL_BITBIT_E, VL_BITWORD_E, VL_MASK_E]
  by_cases hf : hbit % 32 = 31 ∧ lbit % 32 = 0
  · -- fast word-aligned store into lword < rbits/32
    rw [if_pos hf]
    exact wset_other iowp _ (by omega)
  · -- cross-word case (hword = lword is impossible); the out-of-bounds guard
    -- fires, so only lword < rbits/32 is written
    rw [if_neg hf, if_neg (show ¬ hbit / 32 = lbit / 32 by omega),
      if_neg (not_not_intro ⟨by omega, hmul⟩)]
    exact wset_other iowp _ (by omega)

/-- C9 witness: width 32, insert at bits [35:30] — word 1 (the word past the
declared width) keeps its prior value 9. -/
theorem vl_insert_wi_no_oob_write_witness :
    _vl_insert_WI (fun _ => 9) 0xABC 35 30 32 1 = (fun _ => (9 : ℕ)) 1 :=
  vl_insert_wi_no_oob_write (fun _ => 9) 0xABC 35 30 32 (by decide) (by decide)
    (by decide) (by decide) 1 (by decide)

/-- C2 counterexample: for the 64-bit select the boundary case msb = lbits is
not treated as out of range: at lbits = 65, lsb = 2, width = 64 (msb = 65) on
an all-zero buffer the result is 0, not the all-ones the claim states. -/
theorem vl_sel_boundary_counterexample :
    VL_SEL_QWII 65 (fun _ => 0) 2 64 ≠ 0xFFFFFFFFFFFFFFFF := by decide

/-- C2 amended: out-of-range range selects return all-ones, but the boundary
differs per variant: `VL_SEL_IWII` fires on msb ≥ lbits, while
`VL_SEL_QWII`, `VL_SEL_WWII` (all-ones masked to the output width) and the
single-bit `VL_BITSEL_IWII` fire only strictly past the width (msb > lbits,
bit > lbits); at msb = lbits exactly those three compute the in-range
extraction. -/
theorem vl_sel_out_of_range (obits lbits lsb width rd : ℕ) (owp lwp : WArr)
    (_hob : 1 ≤ obits) :
    (lbits ≤ lsb + width - 1 → VL_SEL_IWII lbits lwp lsb width = mask32)
    ∧ (lbits < lsb + width - 1 → VL_SEL_QWII lbits lwp lsb width = mask64)
    ∧ (lbits < rd → VL_BITSEL_IWII lbits lwp rd = mask32)
    ∧ (lbits < lsb + width - 1 → ∀ j, j < VL_WORDS_I obits →
        VL_SEL_WWII obits lbits owp lwp lsb width j
          = if j = VL_WORDS_I obits - 1 then VL_MASK_E obits else mask32) := by
  refine ⟨?_, ?_, ?_, ?_⟩
  · intro h
    simp only [VL_SEL_IWII]
    rw [if_pos h]
  · intro h
    simp only [VL_SEL_QWII]
    rw [if_pos h]
  · intro h
    simp only [VL_BITSEL_IWII]
    rw [if_pos h]
  · intro h j hj
    simp only [VL_SEL_WWII]
    rw [if_pos h]
    rcases eq_or_ne j (VL_WORDS_I obits - 1) with hje | hje
    · rw [if_pos hje, hje, wset_self]
    · rw [if_neg hje, wset_other _ _ hje, wsetLoop_in _ _ 0 _ j (by omega) (by omega)]

/-- C2 amended witness: lbits = 65, lsb = 2, width = 96 (msb = 97 > 65) —
all four variants report out of range. -/
theorem vl_sel_out_of_range_witness :
    (65 ≤ 2 + 96 - 1 → VL_SEL_IWII 65 (fun _ => 0) 2 96 = mask32)
    ∧ (65 < 2 + 96 - 1 → VL_SEL_QWII 65 (fun _ => 0) 2 96 = mask64)
    ∧ (65 < 70 → VL_BITSEL_IWII 65 (fun _ => 0) 70 = mask32)
    ∧ (65 < 2 + 96 - 1 → ∀ j, j < VL_WORDS_I 96 →
        VL_SEL_WWII 96 65 (fun _ => 1) (fun _ => 0) 2 96 j
          = if j = VL_WORDS_I 96 - 1 then VL_MASK_E 96 else mask32) :=
  vl_sel_out_of_range 96 65 2 96 70 (fun _ => 1) (fun _ => 0) (by decide)

theorem VL_MASK_I_ne_zero (nbits : ℕ) : VL_MASK_I nbits ≠ 0 := by
  unfold VL_MASK_I
  split
  · rename_i h
    have h1 : 1 ≤ nbits &&& 31 := by omega
    have : (2 : ℕ) ^ 1 ≤ 2 ^ (nbits &&& 31) := Nat.pow_le_pow_right (by norm_num) h1
    rw [Nat.shiftLeft_eq, one_mul]
    omega
  · decide

theorem VL_MASK_Q_ne_zero (nbits : ℕ) : VL_MASK_Q nbits ≠ 0 := by
  unfold VL_MASK_Q
  split
  · rename_i h
    have h1 : 1 ≤ nbits &&& 63 := by omega
    have : (2 : ℕ) ^ 1 ≤ 2 ^ (nbits &&& 63) := Nat.pow_le_pow_right (by norm_num) h1
    rw [Nat.shiftLeft_eq, one_mul]
    omega
  · rw [mask64_eq]; norm_num

/-- C8: the signed power with both operands signed and a negative, nonzero
exponent (sign bit set at the exponent's declared width) returns 0 for every
base other than 0, 1 and −1; base 0 gives 0, base 1 gives 1, base −1
(all-ones at the output width) gives −1 for odd and 1 for even exponents;
and a zero exponent gives 1 regardless of the sign flags. Shown for the
32-bit and 64-bit variants. -/
theorem vl_powss_negative_exponent
    (obits rbits lhs rhs obQ rbQ lhQ rhQ : ℕ)
    (_ho1 : 1 ≤ obits) (_ho32 : obits ≤ 32) (hr1 : 1 ≤ rbits) (hr32 : rbits ≤ 32)
    (hneg : 2 ^ (rbits - 1) ≤ rhs) (_hclean : rhs < 2 ^ rbits)
    (_hoQ1 : 1 ≤ obQ) (_hoQ64 : obQ ≤ 64) (hrQ1 : 1 ≤ rbQ) (hrQ64 : rbQ ≤ 64)
    (hnegQ : 2 ^ (rbQ - 1) ≤ rhQ) (_hcleanQ : rhQ < 2 ^ rbQ) :
    VL_POWSS_III obits obits rbits 0 rhs true true = 0
    ∧ VL_POWSS_III obits obits rbits 1 rhs true true = 1
    ∧ (rhs % 2 = 1 →
        VL_POWSS_III obits obits rbits (VL_MASK_I obits) rhs true true = VL_MASK_I obits)
    ∧ (rhs % 2 = 0 → VL_POWSS_III obits obits rbits (VL_MASK_I obits) rhs true true = 1)
    ∧ (lhs ≠ 0 → lhs ≠ 1 → lhs ≠ VL_MASK_I obits →
        VL_POWSS_III obits obits rbits lhs rhs true true = 0)
    ∧ (∀ (l r : Bool) (b : ℕ), VL_POWSS_III obits obits rbits b 0 l r = 1)
    ∧ VL_POWSS_QQQ obQ obQ rbQ 0 rhQ true true = 0
    ∧ VL_POWSS_QQQ obQ obQ rbQ 1 rhQ true true = 1
    ∧ (rhQ % 2 = 1 →
        VL_POWSS_QQQ obQ obQ rbQ (VL_MASK_Q obQ) rhQ true true = VL_MASK_Q obQ)
    ∧ (rhQ % 2 = 0 → VL_POWSS_QQQ obQ obQ rbQ (VL_MASK_Q obQ) rhQ true true = 1)
    ∧ (lhQ ≠ 0 → lhQ ≠ 1 → lhQ ≠ VL_MASK_Q obQ →
        VL_POWSS_QQQ obQ obQ rbQ lhQ rhQ true true = 0)
    ∧ (∀ (l r : Bool) (b : ℕ), VL_POWSS_QQQ obQ obQ rbQ b 0 l r = 1) := by
  have hp : (0 : ℕ) < 2 ^ (rbits - 1) := pow_pos (by norm_num) _
  have hpQ : (0 : ℕ) < 2 ^ (rbQ - 1) := pow_pos (by norm_num) _
  have hrne : rhs ≠ 0 := by omega
  have hrneQ : rhQ ≠ 0 := by omega
  have hsign : VL_SIGN_I rbits rhs ≠ 0 := by
    unfold VL_SIGN_I VL_BITBIT_I
    rw [Nat.mod_eq_of_lt (by omega), Nat.shiftRight_eq_div_pow]
    have := Nat.div_pos hneg hp
    omega
  have hsignQ : VL_SIGN_Q rbQ rhQ ≠ 0 := by
    unfold VL_SIGN_Q VL_BITBIT_Q
    rw [Nat.mod_eq_of_lt (by omega), Nat.shiftRight_eq_div_pow]
    have := Nat.div_pos hnegQ hpQ
    omega
  refine ⟨?_, ?_, ?_, ?_, ?_, ?_, ?_, ?_, ?_, ?_, ?_, ?_⟩
  · unfold VL_POWSS_III
    rw [if_neg hrne, if_pos ⟨rfl, hsign⟩, if_pos rfl]
  · unfold VL_POWSS_III
    rw [if_neg hrne, if_pos ⟨rfl, hsign⟩, if_neg one_ne_zero, if_pos rfl]
  · intro hodd
    unfold VL_POWSS_III
    rw [if_neg hrne, if_pos ⟨rfl, hsign⟩, if_neg (VL_MASK_I_ne_zero obits)]
    by_cases hm1 : VL_MASK_I obits = 1
    · rw [if_pos hm1, hm1]
    · rw [if_neg hm1, if_pos ⟨rfl, rfl⟩, if_pos (by rw [Nat.and_one_is_mod]; omega)]
  · intro heven
    unfold VL_POWSS_III
    rw [if_neg hrne, if_pos ⟨rfl, hsign⟩, if_neg (VL_MASK_I_ne_zero obits)]
    by_cases hm1 : VL_MASK_I obits = 1
    · rw [if_pos hm1]
    · rw [if_neg hm1, if_pos ⟨rfl, rfl⟩, if_neg (by rw [Nat.and_one_is_mod]; omega)]
  · intro h0 h1 hm
    unfold VL_POWSS_III
    rw [if_neg hrne, if_pos ⟨rfl, hsign⟩, if_neg h0, if_neg h1, if_neg (by simp [hm])]
  · intro l r b
    unfold VL_POWSS_III
    rw [if_pos rfl]
  · unfold VL_POWSS_QQQ
    rw [if_neg hrneQ, if_pos ⟨rfl, hsignQ⟩, if_pos rfl]
  · unfold VL_POWSS_QQQ
    rw [if_neg hrneQ, if_pos ⟨rfl, hsignQ⟩, if_neg one_ne_zero, if_pos rfl]
  · intro hodd
    unfold VL_POWSS_QQQ
    rw [if_neg hrneQ, if_pos ⟨rfl, hsignQ⟩, if_neg (VL_MASK_Q_ne_zero obQ)]
    by_cases hm1 : VL_MASK_Q obQ = 1
    · rw [if_pos hm1, hm1]
    · rw [if_neg hm1, if_pos ⟨rfl, rfl⟩, if_pos (by rw [Nat.and_one_is_mod]; omega)]
  · intro heven
    unfold VL_POWSS_QQQ
    rw [if_neg hrneQ, if_pos ⟨rfl, hsignQ⟩, if_neg (VL_MASK_Q_ne_zero obQ)]
    by_cases hm1 : VL_MASK_Q obQ = 1
    · rw [if_pos hm1]
    · rw [if_neg hm1, if_pos ⟨rfl, rfl⟩, if_neg (by rw [Nat.and_one_is_mod]; omega)]
  · intro h0 h1 hm
    unfold VL_POWSS_QQQ
    rw [if_neg hrneQ, if_pos ⟨rfl, hsignQ⟩, if_neg h0, if_neg h1, if_neg (by simp [hm])]
  · intro l r b
    unfold VL_POWSS_QQQ
    rw [if_pos rfl]

/-- C8 witness: 8-bit signed power with exponent 0xFF (−1, odd) and 40-bit
with exponent 2^39 (negative, even), at bases 0, 1, −1 and 5/7. -/
theorem vl_powss_negative_exponent_witness :
    VL_POWSS_III 8 8 8 0 0xFF true true = 0
    ∧ VL_POWSS_III 8 8 8 1 0xFF true true = 1
    ∧ (0xFF % 2 = 1 → VL_POWSS_III 8 8 8 (VL_MASK_I 8) 0xFF true true = VL_MASK_I 8)
    ∧ (0xFF % 2 = 0 → VL_POWSS_III 8 8 8 (VL_MASK_I 8) 0xFF true true = 1)
    ∧ (5 ≠ 0 → 5 ≠ 1 → 5 ≠ VL_MASK_I 8 → VL_POWSS_III 8 8 8 5 0xFF true true = 0)
    ∧ (∀ (l r : Bool) (b : ℕ), VL_POWSS_III 8 8 8 b 0 l r = 1)
    ∧ VL_POWSS_QQQ 40 40 40 0 (2 ^ 39) true true = 0
    ∧ VL_POWSS_QQQ 40 40 40 1 (2 ^ 39) true true = 1
    ∧ (2 ^ 39 % 2 = 1 →
        VL_POWSS_QQQ 40 40 40 (VL_MASK_Q 40) (2 ^ 39) true true = VL_MASK_Q 40)
    ∧ (2 ^ 39 % 2 = 0 → VL_POWSS_QQQ 40 40 40 (VL_MASK_Q 40) (2 ^ 39) true true = 1)
    ∧ (7 ≠ 0 → 7 ≠ 1 → 7 ≠ VL_MASK_Q 40 → VL_POWSS_QQQ 40 40 40 7 (2 ^ 39) true true = 0)
    ∧ (∀ (l r : Bool) (b : ℕ), VL_POWSS_QQQ 40 40 40 b 0 l r = 1) :=
  vl_powss_negative_exponent 8 8 5 0xFF 40 40 7 (2 ^ 39) (by decide) (by decide)
    (by decide) (by decide) (by decide) (by decide) (by decide) (by norm_num)
    (by decide) (by norm_num) (by norm_num) (by norm_num)

theorem VL_MASK_I_eq_pow (m : ℕ) (h1 : 1 ≤ m) (h2 : m ≤ 32) :
    VL_MASK_I m = 2 ^ m - 1 := by
  interval_cases m <;> decide

theorem VL_MASK_I_eq_pow_mod (W : ℕ) (hW : 1 ≤ W) :
    VL_MASK_I W = 2 ^ ((W - 1) % 32 + 1) - 1 := by
  unfold VL_MASK_I
  have h31 : W &&& 31 = W % 32 := by
    have : (31 : ℕ) = 2 ^ 5 - 1 := by norm_num
    rw [this, Nat.and_pow_two_sub_one_eq_mod]
  rw [h31]
  split
  · rw [Nat.shiftLeft_eq, one_mul]
    congr 1
    congr 1
    omega
  · rw [mask32_eq]
    congr 1
    congr 1
    omega

theorem VL_MASK_I_lt (n : ℕ) : VL_MASK_I n < 2 ^ 32 := by
  unfold VL_MASK_I
  split
  · have h31 : n &&& 31 ≤ 31 := Nat.and_le_right
    have : (2 : ℕ) ^ (n &&& 31) ≤ 2 ^ 31 := Nat.pow_le_pow_right (by norm_num) h31
    rw [Nat.shiftLeft_eq, one_mul]
    omega
  · decide

theorem mask32_testBit (k : ℕ) : mask32.testBit k = decide (k < 32) := by
  rw [mask32_eq]
  exact Nat.testBit_two_pow_sub_one 32 k

theorem compl32_testBit (m k : ℕ) (hk : k < 32) :
    (compl32 m).testBit k = !(m.testBit k) := by
  rw [compl32, Nat.testBit_xor, mask32_testBit]
  simp [hk]

theorem t32_testBit (x k : ℕ) : (t32 x).testBit k = (decide (k < 32) && x.testBit k) := by
  rw [t32, Nat.testBit_and, mask32_testBit, Bool.and_comm]

/-- A value all of whose bits at positions ≥ n are clear is below 2^n. -/
theorem lt_two_pow_of_high_bits (x n : ℕ) (h : ∀ t, n ≤ t → x.testBit t = false) :
    x < 2 ^ n := by
  have hx : x % 2 ^ n = x := by
    apply Nat.eq_of_testBit_eq
    intro i
    rw [Nat.testBit_mod_two_pow]
    rcases Nat.lt_or_ge i n with hi | hi
    · simp [hi]
    · simp [h i hi, Nat.not_lt.mpr hi]
  rw [← hx]
  exact Nat.mod_lt _ (by positivity)

theorem testBit_add_mul_two_pow (a c b : ℕ) (ha : a < 2 ^ 32) :
    (a + 2 ^ 32 * c).testBit b = if b < 32 then a.testBit b else c.testBit (b - 32) := by
  rcases Nat.lt_or_ge b 32 with hb | hb
  · have h1 : (a + 2 ^ 32 * c) % 2 ^ 32 = a := by
      rw [Nat.add_mul_mod_self_left]
      exact Nat.mod_eq_of_lt ha
    rw [if_pos hb]
    have h2 : (a + 2 ^ 32 * c).testBit b = ((a + 2 ^ 32 * c) % 2 ^ 32).testBit b := by
      rw [Nat.testBit_mod_two_pow]
      simp [hb]
    rw [h2, h1]
  · rw [if_neg (by omega)]
    rw [Nat.testBit_to_div_mod, Nat.testBit_to_div_mod]
    have hsplit : (2 : ℕ) ^ b = 2 ^ 32 * 2 ^ (b - 32) := by
      rw [← pow_add]
      congr 1
      omega
    rw [hsplit, ← Nat.div_div_eq_div_mul]
    rw [Nat.add_mul_div_left _ _ (by positivity), Nat.div_eq_of_lt ha, Nat.zero_add]

/-- Bits of the packed value of a word buffer are the bits of the words. -/
theorem wToNatFrom_testBit (f : WArr) :
    ∀ n i b, (∀ j, i ≤ j → j < i + n → f j < 2 ^ 32) → b < 32 * n →
      (wToNatFrom f i n).testBit b = (f (i + b / 32)).testBit (b % 32) := by
  intro n
  induction n with
  | zero => intro i b _ hb; omega
  | succ n ih =>
    intro i b hf hb
    rw [wToNatFrom, testBit_add_mul_two_pow _ _ _ (hf i (le_refl i) (by omega))]
    rcases Nat.lt_or_ge b 32 with hb32 | hb32
    · rw [if_pos hb32]
      have h1 : b / 32 = 0 := by omega
      have h2 : b % 32 = b := by omega
      rw [h1, h2, Nat.add_zero]
    · rw [if_neg (by omega)]
      rw [ih (i + 1) (b - 32) (fun j hj hj2 => hf j (by omega) (by omega)) (by omega)]
      have h1 : i + 1 + (b - 32) / 32 = i + b / 32 := by omega
      have h2 : (b - 32) % 32 = b % 32 := by omega
      rw [h1, h2]

theorem wToNatFrom_lt (f : WArr) :
    ∀ n i, (∀ j, i ≤ j → j < i + n → f j < 2 ^ 32) →
      wToNatFrom f i n < 2 ^ (32 * n) := by
  intro n
  induction n with
  | zero => intro i _; rw [wToNatFrom]; positivity
  | succ n ih =>
    intro i hf
    rw [wToNatFrom]
    have h1 := hf i (le_refl i) (by omega)
    have h2 := ih (i + 1) (fun j hj hj2 => hf j (by omega) (by omega))
    have h3 : (2 : ℕ) ^ (32 * (n + 1)) = 2 ^ 32 * 2 ^ (32 * n) := by
      rw [← pow_add]
      congr 1
      omega
    rw [h3]
    nlinarith

/-- Value of a buffer whose low words are all-ones and whose top word is the
top-word mask of width W: 2^W - 1. -/
theorem wToNat_ones_pattern (g : WArr) (W : ℕ) (hW : 1 ≤ W)
    (hlow : ∀ j, j < VL_WORDS_I W - 1 → g j = mask32)
    (htop : g (VL_WORDS_I W - 1) = VL_MASK_E W) :
    wToNatFrom g 0 (VL_WORDS_I W) = 2 ^ W - 1 := by
  have hwlt : ∀ j, 0 ≤ j → j < 0 + VL_WORDS_I W → g j < 2 ^ 32 := by
    intro j _ hj
    rcases Nat.lt_or_ge j (VL_WORDS_I W - 1) with h | h
    · rw [hlow j h]; decide
    · have hje : j = VL_WORDS_I W - 1 := by omega
      rw [hje, htop]
      exact VL_MASK_I_lt W
  apply Nat.eq_of_testBit_eq
  intro b
  rw [Nat.testBit_two_pow_sub_one]
  rcases Nat.lt_or_ge b (32 * VL_WORDS_I W) with hb | hb
  · rw [wToNatFrom_testBit g (VL_WORDS_I W) 0 b hwlt hb, Nat.zero_add]
    rcases Nat.lt_or_ge (b / 32) (VL_WORDS_I W - 1) with hw | hw
    · rw [hlow _ hw, mask32_testBit]
      have hbW : b < W := by
        unfold VL_WORDS_I at hw
        omega
      have hm : b % 32 < 32 := by omega
      simp [hbW, hm]
    · have hje : b / 32 = VL_WORDS_I W - 1 := by omega
      rw [hje, htop, VL_MASK_E, VL_MASK_I_eq_pow_mod W hW, Nat.testBit_two_pow_sub_one]
      have hiff : b % 32 < (W - 1) % 32 + 1 ↔ b < W := by
        unfold VL_WORDS_I at hje hb
        omega
      rcases Nat.lt_or_ge b W with h | h
      · simp [h, hiff.mpr h]
      · have : ¬ b % 32 < (W - 1) % 32 + 1 := fun hc => by omega
        simp [this, Nat.not_lt.mpr h]
  · have hlt : wToNatFrom g 0 (VL_WORDS_I W) < 2 ^ (32 * VL_WORDS_I W) :=
      wToNatFrom_lt g (VL_WORDS_I W) 0 hwlt
    have hfW : ¬ b < W := by
      unfold VL_WORDS_I at hb
      omega
    rw [Nat.testBit_lt_two_pow
      (lt_of_lt_of_le hlt (Nat.pow_le_pow_right (by norm_num) hb))]
    simp [hfW]

/-- Intersection of two low-bit masks is the narrower mask. -/
theorem and_two_pow_sub_one (a b : ℕ) (h : b ≤ a) :
    (2 ^ a - 1) &&& (2 ^ b - 1) = 2 ^ b - 1 := by
  rw [Nat.and_pow_two_sub_one_eq_mod]
  have hba : (2 : ℕ) ^ b * 2 ^ (a - b) = 2 ^ a := by
    rw [← pow_add]
    congr 1
    omega
  have h2 : (2 : ℕ) ^ b * (2 ^ (a - b) - 1) = 2 ^ a - 2 ^ b := by
    rw [Nat.mul_sub, hba, Nat.mul_one]
  have h1b : (1 : ℕ) ≤ 2 ^ b := Nat.one_le_two_pow
  have h1a : (1 : ℕ) ≤ 2 ^ (a - b) := Nat.one_le_two_pow
  have hrep : 2 ^ a - 1 = (2 ^ b - 1) + 2 ^ b * (2 ^ (a - b) - 1) := by
    rw [h2]
    have hle : (2 : ℕ) ^ b ≤ 2 ^ a := Nat.pow_le_pow_right (by norm_num) h
    omega
  rw [hrep, Nat.add_mul_mod_self_left, Nat.mod_eq_of_lt (by omega)]

/-- A clean value's top shift by its own width: 0 or 1, deciding the sign. -/
theorem shiftRight_signbit (x W : ℕ) (hW : 1 ≤ W) (hx : x < 2 ^ W) :
    x >>> (W - 1) = if x.testBit (W - 1) then 1 else 0 := by
  rw [Nat.shiftRight_eq_div_pow]
  have h2 : x / 2 ^ (W - 1) < 2 := by
    rw [Nat.div_lt_iff_lt_mul (by positivity)]
    have : (2 : ℕ) ^ W = 2 * 2 ^ (W - 1) := by
      rw [← pow_succ']
      congr 1
      omega
    omega
  rw [Nat.testBit_to_div_mod]
  rcases Nat.le_one_iff_eq_zero_or_eq_one.mp (Nat.lt_succ_iff.mp h2) with h0 | h1
  · simp [h0]
  · simp [h1]

/-- C6: with a shift amount k ≥ the declared width W, the logical shifts give
0 masked to W (narrow left shift masked, clean narrow right shift, wide left
shift outright), and the arithmetic right shift gives the sign fill: all-zeros
for a clear sign bit, all-ones masked to W for a set one — in the narrow and
wide variants. -/
theorem vl_shift_ge_width (W k x : ℕ) (owp lwp : WArr)
    (hW : 1 ≤ W) (hk : W ≤ k)
    (hwords : ∀ i, i < VL_WORDS_I W → lwp i < 2 ^ 32)
    (hclean : wToNat lwp (VL_WORDS_I W) < 2 ^ W) :
    (W ≤ 32 → VL_SHIFTL_III W W W x k &&& VL_MASK_I W = 0)
    ∧ (W ≤ 32 → x < 2 ^ W → VL_SHIFTR_III W W W x k = 0)
    ∧ (W ≤ 32 → x < 2 ^ W →
        VL_SHIFTRS_III W W W x k = if x.testBit (W - 1) then VL_MASK_I W else 0)
    ∧ wToNat (VL_SHIFTL_WWI W W 32 owp lwp k) (VL_WORDS_I W) = 0
    ∧ wToNat (VL_SHIFTRS_WWI W W 32 owp lwp k) (VL_WORDS_I W)
        = if (wToNat lwp (VL_WORDS_I W)).testBit (W - 1) then 2 ^ W - 1 else 0 := by
  have hn1 : 1 ≤ VL_WORDS_I W := by
    unfold VL_WORDS_I
    omega
  refine ⟨?_, ?_, ?_, ?_, ?_⟩
  · intro h32
    unfold VL_SHIFTL_III
    by_cases h : 32 ≤ k
    · rw [if_pos h, Nat.zero_and]
    · rw [if_neg h, VL_MASK_I_eq_pow W hW h32, Nat.and_pow_two_sub_one_eq_mod,
        t32_eq_mod, Nat.mod_mod_of_dvd _ (pow_dvd_pow 2 h32), Nat.shiftLeft_eq]
      have hk2 : (2 : ℕ) ^ k = 2 ^ (k - W) * 2 ^ W := by
        rw [← pow_add]
        congr 1
        omega
      rw [hk2, ← Nat.mul_assoc, Nat.mul_mod_left]
  · intro _h32 hx
    unfold VL_SHIFTR_III
    by_cases h : 32 ≤ k
    · rw [if_pos h]
    · rw [if_neg h, Nat.shiftRight_eq_div_pow]
      exact Nat.div_eq_of_lt
        (lt_of_lt_of_le hx (Nat.pow_le_pow_right (by norm_num) hk))
  · intro h32 hx
    simp only [VL_SHIFTRS_III]
    rw [shiftRight_signbit x W hW hx]
    have hz : VL_MASK_I W >>> k = 0 := by
      rw [VL_MASK_I_eq_pow W hW h32, Nat.shiftRight_eq_div_pow]
      exact Nat.div_eq_of_lt
        (lt_of_lt_of_le (by omega) (Nat.pow_le_pow_right (by norm_num) hk))
    have hxk : x >>> k = 0 := by
      rw [Nat.shiftRight_eq_div_pow]
      exact Nat.div_eq_of_lt
        (lt_of_lt_of_le hx (Nat.pow_le_pow_right (by norm_num) hk))
    have hmand : mask32 &&& VL_MASK_I W = VL_MASK_I W := by
      rw [mask32_eq, VL_MASK_I_eq_pow W hW h32]
      exact and_two_pow_sub_one 32 W h32
    cases hc : x.testBit (W - 1)
    · simp only [Bool.false_eq_true, if_false]
      have hneg : neg32 0 = 0 := by decide
      rw [hneg]
      by_cases h : 32 ≤ k
      · rw [if_pos h, Nat.zero_and]
      · rw [if_neg h, hxk, Nat.zero_and, Nat.or_zero]
    · simp only [if_true]
      have hneg : neg32 1 = mask32 := by decide
      rw [hneg]
      by_cases h : 32 ≤ k
      · rw [if_pos h, hmand]
      · rw [if_neg h, hz, hxk]
        have hc0 : compl32 0 = mask32 := by decide
        rw [hc0]
        unfold VL_CLEAN_II
        rw [hmand, hmand, Nat.zero_or]
  · simp only [VL_SHIFTL_WWI]
    rw [if_pos hk]
    unfold wToNat
    apply wToNatFrom_eq_zero
    intro j hj hj2
    rw [wsetLoop_in _ _ 0 _ j (by omega) (by omega)]
  · have hdivw : (W - 1) / 32 = VL_WORDS_I W - 1 := by
      unfold VL_WORDS_I
      omega
    have hwlt : ∀ j, 0 ≤ j → j < 0 + VL_WORDS_I W → lwp j < 2 ^ 32 :=
      fun j _ hj => hwords j (by omega)
    have hbit : (wToNat lwp (VL_WORDS_I W)).testBit (W - 1)
        = (lwp (VL_WORDS_I W - 1)).testBit ((W - 1) % 32) := by
      unfold wToNat
      rw [wToNatFrom_testBit lwp (VL_WORDS_I W) 0 (W - 1) hwlt
        (by unfold VL_WORDS_I; omega), Nat.zero_add, hdivw]
    have htopbits : ∀ t, (W - 1) % 32 + 1 ≤ t →
        (lwp (VL_WORDS_I W - 1)).testBit t = false := by
      intro t ht
      rcases Nat.lt_or_ge t 32 with ht32 | ht32
      · have hb : 32 * (VL_WORDS_I W - 1) + t < 32 * VL_WORDS_I W := by omega
        have hbW : W ≤ 32 * (VL_WORDS_I W - 1) + t := by
          unfold VL_WORDS_I at hdivw hb ⊢
          omega
        have := wToNatFrom_testBit lwp (VL_WORDS_I W) 0 (32 * (VL_WORDS_I W - 1) + t)
          hwlt hb
        rw [Nat.zero_add] at this
        have hq : (32 * (VL_WORDS_I W - 1) + t) / 32 = VL_WORDS_I W - 1 := by omega
        have hr : (32 * (VL_WORDS_I W - 1) + t) % 32 = t := by omega
        rw [hq, hr] at this
        rw [← this]
        exact Nat.testBit_lt_two_pow
          (lt_of_lt_of_le hclean (Nat.pow_le_pow_right (by norm_num) hbW))
      · exact Nat.testBit_lt_two_pow
          (lt_of_lt_of_le (hwords _ (by omega)) (Nat.pow_le_pow_right (by norm_num) ht32))
    have hlt : lwp (VL_WORDS_I W - 1) < 2 ^ ((W - 1) % 32 + 1) :=
      lt_two_pow_of_high_bits _ _ htopbits
    have hsh : lwp (VL_WORDS_I W - 1) >>> ((W - 1) % 32)
        = if (wToNat lwp (VL_WORDS_I W)).testBit (W - 1) then 1 else 0 := by
      rw [hbit, Nat.shiftRight_eq_div_pow]
      have h2 : lwp (VL_WORDS_I W - 1) / 2 ^ ((W - 1) % 32) < 2 := by
        rw [Nat.div_lt_iff_lt_mul (by positivity)]
        have : (2 : ℕ) ^ ((W - 1) % 32 + 1) = 2 * 2 ^ ((W - 1) % 32) := by
          rw [← pow_succ']
        omega
      rw [Nat.testBit_to_div_mod]
      rcases Nat.le_one_iff_eq_zero_or_eq_one.mp (Nat.lt_succ_iff.mp h2) with h0 | h1
      · simp [h0]
      · simp [h1]
    have hsignones : VL_SIGNONES_E W (lwp (VL_WORDS_I W - 1))
        = if (wToNat lwp (VL_WORDS_I W)).testBit (W - 1) then mask32 else 0 := by
      unfold VL_SIGNONES_E VL_SIGN_E VL_BITBIT_E
      rw [hsh]
      split
      · decide
      · decide
    cases hc : (wToNat lwp (VL_WORDS_I W)).testBit (W - 1)
    · rw [hc] at hsignones
      simp only [Bool.false_eq_true, if_false] at hsignones
      simp only [VL_SHIFTRS_WWI]
      rw [if_pos hk, hsignones]
      simp only [Bool.false_eq_true, if_false]
      unfold wToNat
      apply wToNatFrom_eq_zero
      intro j hj hj2
      rcases eq_or_ne j (VL_WORDS_I W - 1) with hje | hje
      · rw [hje, wset_self, wsetLoop_in _ _ 0 _ _ (by omega) (by omega), Nat.zero_and]
      · rw [wset_other _ _ hje, wsetLoop_in _ _ 0 _ j (by omega) (by omega)]
    · rw [hc] at hsignones
      simp only [if_true] at hsignones
      simp only [VL_SHIFTRS_WWI]
      rw [if_pos hk, hsignones]
      simp only [if_true]
      unfold wToNat
      rw [wToNat_ones_pattern _ W hW ?hlow ?htop]
      case hlow =>
        intro j hj
        rw [wset_other _ _ (by omega), wsetLoop_in _ _ 0 _ j (by omega) (by omega)]
      case htop =>
        rw [wset_self, wsetLoop_in _ _ 0 _ _ (by omega) (by omega)]
        rw [mask32_eq, VL_MASK_E, VL_MASK_I_eq_pow_mod W hW]
        rw [and_two_pow_sub_one 32 ((W - 1) % 32 + 1) (by omega)]

/-- C6 witness: width 8, shift amount 9, value 0x80 (sign bit set). -/
theorem vl_shift_ge_width_witness :
    ((8 : ℕ) ≤ 32 → VL_SHIFTL_III 8 8 8 0x80 9 &&& VL_MASK_I 8 = 0)
    ∧ ((8 : ℕ) ≤ 32 → 0x80 < 2 ^ 8 → VL_SHIFTR_III 8 8 8 0x80 9 = 0)
    ∧ ((8 : ℕ) ≤ 32 → 0x80 < 2 ^ 8 →
        VL_SHIFTRS_III 8 8 8 0x80 9 = if (0x80 : ℕ).testBit (8 - 1) then VL_MASK_I 8 else 0)
    ∧ wToNat (VL_SHIFTL_WWI 8 8 32 (fun _ => 3) (fun _ => 0x80) 9) (VL_WORDS_I 8) = 0
    ∧ wToNat (VL_SHIFTRS_WWI 8 8 32 (fun _ => 3) (fun _ => 0x80) 9) (VL_WORDS_I 8)
        = if (wToNat (fun _ => 0x80) (VL_WORDS_I 8)).testBit (8 - 1) then 2 ^ 8 - 1 else 0 :=
  vl_shift_ge_width 8 9 0x80 (fun _ => 3) (fun _ => 0x80) (by decide) (by decide)
    (by decide) (by decide)

theorem t32_lt (x : ℕ) : t32 x < 2 ^ 32 := by
  rw [t32_eq_mod]
  exact Nat.mod_lt _ (by positivity)

theorem wset_lt (f : WArr) (j val : ℕ) (hf : ∀ i, f i < 2 ^ 32) (hval : val < 2 ^ 32) :
    ∀ i, wset f j val i < 2 ^ 32 := by
  intro i
  unfold wset
  split
  · exact hval
  · exact hf i

theorem VL_MASK_I_zero : VL_MASK_I 0 = mask32 := by decide

theorem shiftRight_le_self (x n : ℕ) : x >>> n ≤ x := by
  rw [Nat.shiftRight_eq_div_pow]
  exact Nat.div_le_self _ _

/-- All words of an `_vl_insert_WI` result stay below 2^32. -/
theorem insert_wi_words_lt (f : WArr) (v hbit lbit rbits : ℕ)
    (hf : ∀ i, f i < 2 ^ 32) (hv : v < 2 ^ 32) :
    ∀ i, (_vl_insert_WI f v hbit lbit rbits) i < 2 ^ 32 := by
  intro i
  simp only [_vl_insert_WI]
  split_ifs <;>
  first
    | exact wset_lt f _ _ hf (lt_of_le_of_lt Nat.and_le_left hv) i
    | exact wset_lt f _ _ hf
        (Nat.or_lt_two_pow (lt_of_le_of_lt Nat.and_le_left (hf _))
          (lt_of_le_of_lt Nat.and_le_left (t32_lt _))) i
    | exact wset_lt _ _ _
        (wset_lt f _ _ hf
          (Nat.or_lt_two_pow (lt_of_le_of_lt Nat.and_le_left (hf _))
            (lt_of_le_of_lt Nat.and_le_left (t32_lt _))))
        (Nat.or_lt_two_pow
          (lt_of_le_of_lt Nat.and_le_left
            (wset_lt f _ _ hf
              (Nat.or_lt_two_pow (lt_of_le_of_lt Nat.and_le_left (hf _))
                (lt_of_le_of_lt Nat.and_le_left (t32_lt _))) _))
          (lt_of_le_of_lt (le_trans Nat.and_le_left (shiftRight_le_self _ _)) hv)) i

/-- Read-modify-write merge: where the mask bit is set, the merged word shows
the inserted data's bit. -/
theorem merge_testBit (a c m k : ℕ) (hk : k < 32) (hm : m.testBit k = true) :
    ((a &&& compl32 m) ||| (c &&& m)).testBit k = c.testBit k := by
  rw [Nat.testBit_or, Nat.testBit_and, Nat.testBit_and, compl32_testBit _ _ hk, hm]
  simp

/-- As `merge_testBit`, with a second (cleaning) mask also set at the bit. -/
theorem merge2_testBit (a c m1 m2 k : ℕ) (hk : k < 32) (hm1 : m1.testBit k = true)
    (hm2 : m2.testBit k = true) :
    ((a &&& compl32 m1) ||| (c &&& (m1 &&& m2))).testBit k = c.testBit k := by
  rw [Nat.testBit_or, Nat.testBit_and, Nat.testBit_and, Nat.testBit_and,
    compl32_testBit _ _ hk, hm1, hm2]
  simp

/-- Bits inside an inserted range `[hbit:lbit]` of `_vl_insert_WI` are the
corresponding bits of the inserted value. -/
theorem insert_wi_testBit (f : WArr) (v hbit lbit rbits : ℕ)
    (_hf : ∀ i, f i < 2 ^ 32) (_hv : v < 2 ^ 32)
    (hlh : lbit ≤ hbit) (hhr : hbit < rbits) (hw32 : hbit - lbit + 1 ≤ 32)
    (b : ℕ) (hb1 : lbit ≤ b) (hb2 : b ≤ hbit) :
    ((_vl_insert_WI f v hbit lbit rbits) (b / 32)).testBit (b % 32)
      = v.testBit (b - lbit) := by
  simp only [_vl_insert_WI, VL_BITBIT_E, VL_BITWORD_E, VL_MASK_E]
  have hcleanbit : ∀ k, k ≤ hbit % 32 →
      (if hbit / 32 = rbits / 32 then VL_MASK_I (rbits % 32) else VL_MASK_I 0).testBit k
        = true := by
    intro k hkh
    split
    · rename_i hhw
      have hro : hbit % 32 < rbits % 32 := by omega
      rw [VL_MASK_I_eq_pow (rbits % 32) (by omega) (by omega),
        Nat.testBit_two_pow_sub_one]
      simp
      omega
    · rw [VL_MASK_I_zero, mask32_testBit]
      simp
      omega
  by_cases hfast : hbit % 32 = 31 ∧ lbit % 32 = 0
  · rw [if_pos hfast]
    have hb32 : b / 32 = lbit / 32 := by omega
    rw [hb32, wset_self, Nat.testBit_and, hcleanbit (b % 32) (by omega)]
    have hbl : b % 32 = b - lbit := by omega
    rw [hbl, Bool.and_true]
  · rw [if_neg hfast]
    by_cases hsame : hbit / 32 = lbit / 32
    · rw [if_pos hsame]
      have hb32 : b / 32 = lbit / 32 := by omega
      have hlo : lbit % 32 ≤ hbit % 32 := by omega
      have hk31 : b % 32 < 32 := by omega
      have harg1 : 1 ≤ hbit % 32 - lbit % 32 + 1 := by omega
      have harg2 : hbit % 32 - lbit % 32 + 1 ≤ 32 := by omega
      rw [hb32, wset_self]
      have hins : (VL_MASK_I (hbit % 32 - lbit % 32 + 1) <<< (lbit % 32)).testBit (b % 32)
          = true := by
        rw [VL_MASK_I_eq_pow _ harg1 harg2, Nat.testBit_shiftLeft,
          Nat.testBit_two_pow_sub_one]
        have h1 : lbit % 32 ≤ b % 32 := by omega
        have h2 : b % 32 - lbit % 32 < hbit % 32 - lbit % 32 + 1 := by omega
        simp [h1, h2]
      rw [merge2_testBit _ _ _ _ _ hk31 hins (hcleanbit (b % 32) (by omega))]
      rw [t32_testBit, Nat.testBit_shiftLeft]
      have h1 : lbit % 32 ≤ b % 32 := by omega
      have h2 : b % 32 - lbit % 32 = b - lbit := by omega
      simp [hk31, h1, h2]
    · rw [if_neg hsame]
      have hhw : hbit / 32 = lbit / 32 + 1 := by omega
      rw [if_pos (show ¬(hbit / 32 = rbits / 32 ∧ rbits % 32 = 0) from fun hc => by omega)]
      have hlins : ∀ k, lbit % 32 ≤ k → k < 32 →
          (VL_MASK_I (31 - lbit % 32 + 1) <<< (lbit % 32)).testBit k = true := by
        intro k hk1 hk2
        rw [VL_MASK_I_eq_pow _ (by omega) (by omega), Nat.testBit_shiftLeft,
          Nat.testBit_two_pow_sub_one]
        have h2 : k - lbit % 32 < 31 - lbit % 32 + 1 := by omega
        simp [hk1, h2]
      rcases Nat.lt_or_ge b (32 * (lbit / 32) + 32) with hbl | hbh
      · -- b lies in the low word
        have hb32 : b / 32 = lbit / 32 := by omega
        have hk31 : b % 32 < 32 := by omega
        rw [hb32, wset_other _ _ (by omega), wset_self]
        rw [merge_testBit _ _ _ _ hk31 (hlins (b % 32) (by omega) hk31)]
        rw [t32_testBit, Nat.testBit_shiftLeft]
        have h1 : lbit % 32 ≤ b % 32 := by omega
        have h2 : b % 32 - lbit % 32 = b - lbit := by omega
        simp [hk31, h1, h2]
      · -- b lies in the high word
        have hb32 : b / 32 = hbit / 32 := by omega
        have hk31 : b % 32 < 32 := by omega
        have hkh : b % 32 ≤ hbit % 32 := by omega
        have hhins : (VL_MASK_I (hbit % 32 - 0 + 1) <<< 0).testBit (b % 32) = true := by
          rw [Nat.shiftLeft_zero, VL_MASK_I_eq_pow _ (by omega) (by omega),
            Nat.testBit_two_pow_sub_one]
          simp
          omega
        rw [hb32, wset_self]
        rw [merge2_testBit _ _ _ _ _ hk31 hhins (hcleanbit (b % 32) hkh)]
        rw [Nat.testBit_shiftRight]
        congr 1
        omega

/-- Bits of an in-range 32-bit select are the addressed buffer bits. -/
theorem sel_iwii_testBit (lbits lsb width : ℕ) (f : WArr)
    (hw1 : 1 ≤ width) (hw32 : width ≤ 32) (hin : lsb + width - 1 < lbits)
    (hf : ∀ i, f i < 2 ^ 32) (j : ℕ) (hj : j < width) :
    (VL_SEL_IWII lbits f lsb width).testBit j
      = (f ((lsb + j) / 32)).testBit ((lsb + j) % 32) := by
  simp only [VL_SEL_IWII, VL_BITRSHIFT_W, VL_BITWORD_E, VL_BITBIT_E]
  rw [if_neg (by omega)]
  by_cases hsame : (lsb + width - 1) / 32 = lsb / 32
  · rw [if_pos hsame]
    rw [Nat.testBit_shiftRight]
    have h1 : (lsb + j) / 32 = lsb / 32 := by omega
    have h2 : (lsb + j) % 32 = lsb % 32 + j := by omega
    rw [h1, h2]
  · rw [if_neg hsame]
    have hhw : (lsb + width - 1) / 32 = lsb / 32 + 1 := by omega
    rw [Nat.testBit_or, t32_testBit, Nat.testBit_shiftLeft, Nat.testBit_shiftRight]
    rcases Nat.lt_or_ge (lsb % 32 + j) 32 with hlow | hhigh
    · -- bit comes from the low word
      have h1 : (lsb + j) / 32 = lsb / 32 := by omega
      have h2 : (lsb + j) % 32 = lsb % 32 + j := by omega
      have hnb : ¬ j ≥ 32 - lsb % 32 := by omega
      rw [h1, h2]
      simp [hnb]
    · -- bit comes from the high word
      have h1 : (lsb + j) / 32 = lsb / 32 + 1 := by omega
      have h2 : (lsb + j) % 32 = j - (32 - lsb % 32) := by omega
      have hlw : (f (lsb / 32)).testBit (lsb % 32 + j) = false :=
        Nat.testBit_lt_two_pow
          (lt_of_lt_of_le (hf _) (Nat.pow_le_pow_right (by norm_num) (by omega)))
      have hnb : j ≥ 32 - lsb % 32 := by omega
      have hj32 : j < 32 := by omega
      rw [hhw, h1, h2]
      simp [hnb, hj32, hlw]

/-- C5: inserting a 32-bit value `v` at bit range `[hi:lo]` of a wide buffer
of declared width W and selecting the same range back recovers `v` masked to
`hi-lo+1` bits (the select output is dirty above the range width, so it is
compared masked). -/
theorem vl_insert_select_roundtrip (W hi lo v : ℕ) (x : WArr)
    (hlohi : lo ≤ hi) (hhiW : hi < W) (hw32 : hi - lo + 1 ≤ 32)
    (hv : v < 2 ^ 32) (hx : ∀ i, x i < 2 ^ 32) :
    VL_SEL_IWII W (_vl_insert_WI x v hi lo W) lo (hi - lo + 1)
        &&& VL_MASK_I (hi - lo + 1)
      = v &&& VL_MASK_I (hi - lo + 1) := by
  set width := hi - lo + 1 with hwidth
  have hw1 : 1 ≤ width := by omega
  have hmask : VL_MASK_I width = 2 ^ width - 1 := VL_MASK_I_eq_pow width hw1 hw32
  apply Nat.eq_of_testBit_eq
  intro j
  rw [Nat.testBit_and, Nat.testBit_and, hmask, Nat.testBit_two_pow_sub_one]
  rcases Nat.lt_or_ge j width with hj | hj
  · rw [sel_iwii_testBit W lo width _ hw1 hw32 (by omega)
      (insert_wi_words_lt x v hi lo W hx hv) j hj]
    rw [insert_wi_testBit x v hi lo W hx hv hlohi hhiW (by omega) (lo + j)
      (by omega) (by omega)]
    have h2 : lo + j - lo = j := by omega
    rw [h2]
  · simp [Nat.not_lt.mpr hj]

/-- C5 witness: width 100, insert 0xF at bits [99:96] of an all-ones buffer,
select [99:96] masked to 4 bits recovers 0xF. -/
theorem vl_insert_select_roundtrip_witness :
    VL_SEL_IWII 100 (_vl_insert_WI (fun _ => 0xFFFFFFFF) 0xF 99 96 100) 96 (99 - 96 + 1)
        &&& VL_MASK_I (99 - 96 + 1)
      = 0xF &&& VL_MASK_I (99 - 96 + 1) :=
  vl_insert_select_roundtrip 100 99 96 0xF (fun _ => 0xFFFFFFFF) (by decide)
    (by decide) (by decide) (by decide)
    (by intro i; show (0xFFFFFFFF : ℕ) < 2 ^ 32; decide)

theorem or_and_distrib (x y m : ℕ) : (x ||| y) &&& m = (x &&& m) ||| (y &&& m) := by
  apply Nat.eq_of_testBit_eq
  intro i
  simp only [Nat.testBit_or, Nat.testBit_and]
  cases x.testBit i <;> cases y.testBit i <;> cases m.testBit i <;> rfl

theorem or_shiftLeft_distrib (x y k : ℕ) :
    (x ||| y) <<< k = (x <<< k) ||| (y <<< k) := by
  apply Nat.eq_of_testBit_eq
  intro i
  simp only [Nat.testBit_or, Nat.testBit_shiftLeft]
  cases hik : decide (i ≥ k) <;> simp

theorem or_shiftRight_distrib (x y k : ℕ) :
    (x ||| y) >>> k = (x >>> k) ||| (y >>> k) := by
  apply Nat.eq_of_testBit_eq
  intro i
  simp [Nat.testBit_or, Nat.testBit_shiftRight]

theorem t32_or (x y : ℕ) : t32 (x ||| y) = t32 x ||| t32 y := or_and_distrib x y mask32

theorem or_left_comm (a b c : ℕ) : a ||| (b ||| c) = b ||| (a ||| c) := by
  rw [← Nat.or_assoc, Nat.or_comm a b, Nat.or_assoc]

theorem vlStreamSwap_or (sh m a b : ℕ) :
    vlStreamSwap sh m (a ||| b) = vlStreamSwap sh m a ||| vlStreamSwap sh m b := by
  unfold vlStreamSwap
  rw [or_shiftRight_distrib, or_and_distrib, or_and_distrib, or_shiftLeft_distrib]
  simp [Nat.or_assoc, Nat.or_comm, or_left_comm]

theorem vlStreamSwap16_or (a b : ℕ) :
    vlStreamSwap16 (a ||| b) = vlStreamSwap16 a ||| vlStreamSwap16 b := by
  unfold vlStreamSwap16
  rw [or_shiftRight_distrib, or_shiftLeft_distrib, t32_or]
  simp [Nat.or_assoc, Nat.or_comm, or_left_comm]

theorem vlStreamPre_or (lbits r a b : ℕ) :
    vlStreamPre lbits r (a ||| b) = vlStreamPre lbits r a ||| vlStreamPre lbits r b := by
  unfold vlStreamPre
  split_ifs
  · simp only [or_and_distrib, or_shiftLeft_distrib, t32_or]
    simp [Nat.or_assoc, Nat.or_comm, or_left_comm]
  · rfl

theorem vlStreamSwap_zero (sh m : ℕ) : vlStreamSwap sh m 0 = 0 := by
  simp [vlStreamSwap, Nat.zero_shiftRight, Nat.zero_and, Nat.zero_shiftLeft]

theorem vlStreamSwap16_zero : vlStreamSwap16 0 = 0 := by
  simp [vlStreamSwap16, t32, Nat.zero_shiftRight, Nat.zero_shiftLeft, Nat.zero_and]

theorem vlStreamPre_zero (lbits r : ℕ) : vlStreamPre lbits r 0 = 0 := by
  unfold vlStreamPre
  split_ifs
  · simp [t32, Nat.zero_and, Nat.zero_shiftLeft]
  · rfl

theorem ite_or_hom (c : Prop) [Decidable c] (F : ℕ → ℕ)
    (hF : ∀ a b, F (a ||| b) = F a ||| F b) (a b : ℕ) :
    (if c then F (a ||| b) else (a ||| b)) = (if c then F a else a) ||| (if c then F b else b) := by
  split_ifs with h
  · exact hF a b
  · rfl

theorem ite_zero_hom (c : Prop) [Decidable c] (F : ℕ → ℕ) (hF : F 0 = 0) :
    (if c then F 0 else 0) = 0 := by
  split_ifs with h
  · exact hF
  · rfl

/-- The fast stream path distributes over bitwise OR of the data input (all
its masks and shift amounts depend only on the widths). -/
theorem streaml_fast_or (lbits r x y : ℕ) :
    VL_STREAML_FAST_III lbits (x ||| y) r
      = VL_STREAML_FAST_III lbits x r ||| VL_STREAML_FAST_III lbits y r := by
  simp only [VL_STREAML_FAST_III]
  rw [vlStreamPre_or,
    ite_or_hom (r ≤ 0) (vlStreamSwap 1 0x55555555) (vlStreamSwap_or 1 0x55555555),
    ite_or_hom (r ≤ 1) (vlStreamSwap 2 0x33333333) (vlStreamSwap_or 2 0x33333333),
    ite_or_hom (r ≤ 2) (vlStreamSwap 4 0x0F0F0F0F) (vlStreamSwap_or 4 0x0F0F0F0F),
    ite_or_hom (r ≤ 3) (vlStreamSwap 8 0x00FF00FF) (vlStreamSwap_or 8 0x00FF00FF),
    ite_or_hom (r ≤ 4) vlStreamSwap16 vlStreamSwap16_or,
    or_shiftRight_distrib]

theorem streaml_fast_zero (lbits r : ℕ) : VL_STREAML_FAST_III lbits 0 r = 0 := by
  simp only [VL_STREAML_FAST_III]
  rw [vlStreamPre_zero,
    ite_zero_hom (r ≤ 0) (vlStreamSwap 1 0x55555555) (vlStreamSwap_zero 1 0x55555555),
    ite_zero_hom (r ≤ 1) (vlStreamSwap 2 0x33333333) (vlStreamSwap_zero 2 0x33333333),
    ite_zero_hom (r ≤ 2) (vlStreamSwap 4 0x0F0F0F0F) (vlStreamSwap_zero 4 0x0F0F0F0F),
    ite_zero_hom (r ≤ 3) (vlStreamSwap 8 0x00FF00FF) (vlStreamSwap_zero 8 0x00FF00FF),
    ite_zero_hom (r ≤ 4) vlStreamSwap16 vlStreamSwap16_zero,
    Nat.zero_shiftRight]

theorem streamlLoop_acc (lbits ld rd mask : ℕ) :
    ∀ fuel istart ret, streamlLoop lbits ld rd mask istart fuel ret
      = ret ||| streamlLoop lbits ld rd mask istart fuel 0 := by
  intro fuel
  induction fuel with
  | zero =>
    intro istart ret
    show ret = ret ||| 0
    rw [Nat.or_zero]
  | succ fuel ih =>
    intro istart ret
    simp only [streamlLoop]
    by_cases h : istart < lbits
    · rw [if_pos h, if_pos h, ih, ih (istart + rd) (0 ||| _), Nat.zero_or]
      simp [Nat.or_assoc]
    · rw [if_neg h, if_neg h, Nat.or_zero]

theorem streamlLoop_or (lbits rd mask x y : ℕ) :
    ∀ fuel istart, streamlLoop lbits (x ||| y) rd mask istart fuel 0
      = streamlLoop lbits x rd mask istart fuel 0
        ||| streamlLoop lbits y rd mask istart fuel 0 := by
  intro fuel
  induction fuel with
  | zero =>
    intro istart
    show (0 : ℕ) = 0 ||| 0
    rw [Nat.or_zero]
  | succ fuel ih =>
    intro istart
    simp only [streamlLoop]
    by_cases h : istart < lbits
    · rw [if_pos h, if_pos h, if_pos h,
        streamlLoop_acc lbits (x ||| y), streamlLoop_acc lbits x,
        streamlLoop_acc lbits y, ih (istart + rd),
        Nat.zero_or, Nat.zero_or, Nat.zero_or,
        or_shiftRight_distrib, or_and_distrib, or_shiftLeft_distrib, t32_or]
      simp [Nat.or_assoc, Nat.or_comm, or_left_comm]
    · rw [if_neg h, if_neg h, if_neg h, Nat.or_zero]

theorem streamlLoop_zero_ld (lbits rd mask : ℕ) :
    ∀ fuel istart, streamlLoop lbits 0 rd mask istart fuel 0 = 0 := by
  intro fuel
  induction fuel with
  | zero => intro istart; rfl
  | succ fuel ih =>
    intro istart
    simp only [streamlLoop]
    by_cases h : istart < lbits
    · rw [if_pos h]
      have hv : t32 (((0 : ℕ) >>> istart &&& mask) <<< (lbits - rd - istart)) = 0 := by
        simp [t32, Nat.zero_shiftRight, Nat.zero_and, Nat.zero_shiftLeft]
      rw [hv, Nat.or_zero, ih]
    · rw [if_neg h]

theorem streaml_slow_or (lbits rd x y : ℕ) :
    VL_STREAML_III lbits (x ||| y) rd
      = VL_STREAML_III lbits x rd ||| VL_STREAML_III lbits y rd :=
  streamlLoop_or lbits rd (VL_MASK_I rd) x y lbits 0

theorem streaml_slow_zero (lbits rd : ℕ) : VL_STREAML_III lbits 0 rd = 0 :=
  streamlLoop_zero_ld lbits rd (VL_MASK_I rd) lbits 0

/-- Splitting a value at bit n: low part OR shifted high part. -/
theorem or_split_at (x n : ℕ) : (x % 2 ^ n) ||| ((x >>> n) <<< n) = x := by
  apply Nat.eq_of_testBit_eq
  intro i
  simp only [Nat.testBit_or, Nat.testBit_mod_two_pow, Nat.testBit_shiftLeft,
    Nat.testBit_shiftRight]
  rcases Nat.lt_or_ge i n with h | h
  · have h2 : ¬ i ≥ n := by omega
    simp [h, h2]
  · have h2 : n + (i - n) = i := by omega
    simp [Nat.not_lt.mpr h, h, h2]

/-- Two OR-homomorphisms that vanish at 0 and agree on the single-bit basis
elements below n agree on every value below 2^n. -/
theorem eq_on_basis (f g : ℕ → ℕ)
    (hf1 : ∀ a b, f (a ||| b) = f a ||| f b) (hf0 : f 0 = 0)
    (hg1 : ∀ a b, g (a ||| b) = g a ||| g b) (hg0 : g 0 = 0) :
    ∀ n, (∀ i, i < n → f (1 <<< i) = g (1 <<< i)) → ∀ x, x < 2 ^ n → f x = g x := by
  intro n
  induction n with
  | zero =>
    intro _ x hx
    have hx0 : x = 0 := Nat.lt_one_iff.mp (by simpa using hx)
    rw [hx0, hf0, hg0]
  | succ n ih =>
    intro hbasis x hx
    have hsplit := or_split_at x n
    have hdiv : x >>> n = x / 2 ^ n := Nat.shiftRight_eq_div_pow x n
    have hd2 : x / 2 ^ n < 2 := by
      rw [Nat.div_lt_iff_lt_mul (by positivity)]
      have hp : (2 : ℕ) ^ (n + 1) = 2 ^ n * 2 := by rw [pow_succ]
      omega
    have hlo : x % 2 ^ n < 2 ^ n := Nat.mod_lt _ (by positivity)
    rcases Nat.le_one_iff_eq_zero_or_eq_one.mp (Nat.lt_succ_iff.mp hd2) with h0 | h1
    · have hx0 : x = x % 2 ^ n := by
        rw [← hsplit, hdiv, h0]
        simp
      have hres := ih (fun i hi => hbasis i (by omega)) (x % 2 ^ n) hlo
      rw [hx0]
      exact hres
    · have hhi : (x >>> n) <<< n = 1 <<< n := by rw [hdiv, h1]
      calc f x = f ((x % 2 ^ n) ||| ((x >>> n) <<< n)) := by rw [hsplit]
        _ = f (x % 2 ^ n) ||| f ((x >>> n) <<< n) := hf1 _ _
        _ = g (x % 2 ^ n) ||| g ((x >>> n) <<< n) := by
            rw [ih (fun i hi => hbasis i (by omega)) _ hlo, hhi, hbasis n (by omega)]
        _ = g ((x % 2 ^ n) ||| ((x >>> n) <<< n)) := (hg1 _ _).symm
        _ = g x := by rw [hsplit]

/-- Basis check: fast and slow stream paths agree on every single-bit input,
for every width up to 32 and every power-of-two slice size within the width. -/
theorem streaml_basis_eq (lbits r : ℕ) (h1 : 1 ≤ lbits) (h32 : lbits ≤ 32)
    (hr : 1 <<< r ≤ lbits) :
    ∀ i, i < lbits →
      VL_STREAML_FAST_III lbits (1 <<< i) r = VL_STREAML_III lbits (1 <<< i) (1 <<< r) := by
  have hr5 : r ≤ 5 := by
    by_contra hc
    push_neg at hc
    have h6 : (2 : ℕ) ^ 6 ≤ 2 ^ r := Nat.pow_le_pow_right (by norm_num) hc
    rw [Nat.shiftLeft_eq, one_mul] at hr
    omega
  interval_cases lbits <;> interval_cases r <;>
    first
      | exact absurd hr (by decide)
      | decide

/-- C3: for every width 1 ≤ lbits ≤ 32, every clean input and every
power-of-two slice size 2^rd_log2 ≤ lbits, the fast streaming operator agrees
with the generic slow path. -/
theorem vl_streaml_fast_eq_slow (lbits ld r : ℕ) (h1 : 1 ≤ lbits)
    (h32 : lbits ≤ 32) (hr : 1 <<< r ≤ lbits) (hld : ld < 2 ^ lbits) :
    VL_STREAML_FAST_III lbits ld r = VL_STREAML_III lbits ld (1 <<< r) :=
  eq_on_basis (fun t => VL_STREAML_FAST_III lbits t r)
    (fun t => VL_STREAML_III lbits t (1 <<< r))
    (fun a b => streaml_fast_or lbits r a b) (streaml_fast_zero lbits r)
    (fun a b => streaml_slow_or lbits (1 <<< r) a b) (streaml_slow_zero lbits (1 <<< r))
    lbits (streaml_basis_eq lbits r h1 h32 hr) ld hld

/-- C3 witness: 8-bit value 0xB6 streamed with slice size 2 — fast and slow
paths agree. -/
theorem vl_streaml_fast_eq_slow_witness :
    VL_STREAML_FAST_III 8 0xB6 1 = VL_STREAML_III 8 0xB6 (1 <<< 1) :=
  vl_streaml_fast_eq_slow 8 0xB6 1 (by decide) (by decide) (by decide) (by decide)

end Verilated
